import Mathlib

/-!
# Verification of the MPC constraint-elimination assembly (dolfinx_mpc)

Shallow embedding of the per-cell constraint transform and its drivers from
`python/dolfinx_mpc/assemble_matrix.py` and `python/dolfinx_mpc/assemble_vector.py`.

Modelling conventions:
* PETSc scalars are modelled as `ℚ`.
* A global additive insertion (`set_values_local` with add mode) is recorded as a
  triple `(row, col, value)`; `accum` gives the total added at one position.
* numpy arrays holding per-cell data are `List Nat` / `List ℚ`; the local element
  matrix and the local row/column work arrays are total functions (`Nat → Nat → ℚ`,
  `Nat → ℚ`) read only at indices below the number of dofs per element.
* a numba `assert` failure aborts the assembly; fallible steps return `Option`,
  `none` standing for the abort.
-/

namespace MPCVerify

/-- An additive insertion into the global matrix: (row, col, value). -/
abbrev Ins : Type := Nat × Nat × ℚ

/-- Total value accumulated at position `(i, j)` by a list of additive insertions. -/
def accum (L : List Ins) (i j : Nat) : ℚ :=
  (L.map (fun t => if t.1 = i ∧ t.2.1 = j then t.2.2 else 0)).sum

/-- Total value accumulated at position `p` by additive vector insertions. -/
def accumV (L : List (Nat × ℚ)) (p : Nat) : ℚ :=
  (L.map (fun t => if t.1 = p then t.2 else 0)).sum

/-- Pointwise update of a function, modelling a numpy array element assignment. -/
def upd (f : Nat → ℚ) (i : Nat) (v : ℚ) : Nat → ℚ :=
  fun k => if k = i then v else f k

/-- Fold over a list where each step can abort (a python loop containing an
`assert` that can fail). `none` models the aborted assembly. -/
def optFold {σ α : Type} (f : σ → α → Option σ) : σ → List α → Option σ
  | st, [] => some st
  | st, a :: l =>
    match f st a with
    | none => none
    | some st' => optFold f st' l

/-- Python slice `l[a:b]` (for `0 ≤ a ≤ b`). -/
def slice {α : Type} (l : List α) (a b : Nat) : List α :=
  (l.drop a).take (b - a)

/-- The insertion list of a transform result (`[]` for an aborted run). -/
def insOf (r : Option ((Nat → Nat → ℚ) × List Ins)) : List Ins :=
  (Option.map Prod.snd r).getD []

/-! ## Embedding of `assemble_matrix.py` -/

/-- Embeds `in_numpy_array` (assemble_matrix.py lines 123-129): membership test. -/
def in_numpy_array (arr : List Nat) (v : Nat) : Bool :=
  arr.contains v

/-- Embeds `slave_global_to_local_pos` (assemble_matrix.py lines 202-213): the
first local position `k` with `global_indices[local_pos[k]] == slave`; the
numba `assert(local_index != -1)` aborts when there is no match, modelled by
`none`. -/
def slave_global_to_local_pos (slave : Nat) (global_indices : Nat → Nat) :
    List Nat → Option Nat
  | [] => none
  | p :: rest =>
    if global_indices p = slave then some 0
    else
      match slave_global_to_local_pos slave global_indices rest with
      | none => none
      | some k => some (k + 1)

/-- Embeds assemble_matrix.py lines 252-256: the indices `gi` into `slaves`
whose slave is listed in `cell_slaves`. -/
def global_slave_indices (slaves cell_slaves : List Nat) : List Nat :=
  (List.range slaves.length).filter (fun gi => in_numpy_array cell_slaves (slaves.getD gi 0))

/-- The master slice `masters_local[offsets[si]:offsets[si+1]]`
(assemble_matrix.py lines 260-261). -/
def cellMastersOf (mastersLocal offsets : List Nat) (si : Nat) : List Nat :=
  slice mastersLocal (offsets.getD si 0) (offsets.getD (si + 1) 0)

/-- The coefficient slice `coefficients[offsets[si]:offsets[si+1]]`
(assemble_matrix.py lines 262-263). -/
def cellCoeffsOf (coefficients : List ℚ) (offsets : List Nat) (si : Nat) : List ℚ :=
  slice coefficients (offsets.getD si 0) (offsets.getD (si + 1) 0)

/-- Zeroing `A_local[:, p] = 0; A_local[p, :] = 0` (assemble_matrix.py
lines 284-286). -/
def zeroRowCol (M : Nat → Nat → ℚ) (p : Nat) : Nat → Nat → ℚ :=
  fun i j => if i = p ∨ j = p then 0 else M i j

/-- One iteration of the inner other-master loop (assemble_matrix.py lines
305-325): state is `(A_row, A_col, emissions)`.  The cross values are read from
the current `A_row`/`A_col`, the entry at the other slave's local position is
then zeroed, and the two cross insertions are emitted only under the
`o_slave_index > s_0` guard. -/
def crossMasterStep (s0 o master oLoc : Nat) (om : Nat) (oc : ℚ)
    (st : (Nat → ℚ) × (Nat → ℚ) × List Ins) : (Nat → ℚ) × (Nat → ℚ) × List Ins :=
  let v01 := oc * st.1 oLoc
  let v10 := oc * st.2.1 oLoc
  (upd st.1 oLoc 0, upd st.2.1 oLoc 0,
    st.2.2 ++ (if s0 < o then [(master, om, v01), (om, master, v10)] else []))

/-- One iteration of the other-slave loop (assemble_matrix.py lines 291-325):
skip when the other slave is the current one, otherwise resolve its local
position (aborting like the numba assert when absent) and run the other-master
loop. -/
def otherSlaveStep (local_pos slaves mastersLocal : List Nat) (coefficients : List ℚ)
    (offsets cell_slaves : List Nat) (gi : Nat → Nat)
    (s0 slave_index master : Nat)
    (st : (Nat → ℚ) × (Nat → ℚ) × List Ins) (o : Nat) :
    Option ((Nat → ℚ) × (Nat → ℚ) × List Ins) :=
  let other_slave := (global_slave_indices slaves cell_slaves).getD o 0
  if other_slave = slave_index then some st
  else
    (slave_global_to_local_pos (slaves.getD other_slave 0) gi local_pos).map
      (fun oLoc =>
        ((cellMastersOf mastersLocal offsets other_slave).zip
          (cellCoeffsOf coefficients offsets other_slave)).foldl
          (fun s p => crossMasterStep s0 o master oLoc p.1 p.2 s) st)

/-- One iteration of the master loop (assemble_matrix.py lines 269-373).
`A` is `A_local_copy` (the pre-zeroing copy), `st` carries the mutated
`A_local` and the emissions so far, `dmc = (d, master, coeff)`.  Extracts the
slave column/row scaled by `coeff`, takes the master-diagonal value before the
zeroing at `slave_local`, zeroes the slave row/column of the mutated local
matrix, runs the other-slave loop, then emits the row block at
`(mpc_pos, master)`, the column block at `(master, mpc_pos)`, the diagonal term
and the same-slave cross-master terms for masters after `d`. -/
def masterStep (A : Nat → Nat → ℚ) (n : Nat)
    (local_pos slaves mastersLocal : List Nat) (coefficients : List ℚ)
    (offsets cell_slaves : List Nat) (gi : Nat → Nat)
    (s0 slave_index slave_local : Nat) (cm : List Nat) (cc : List ℚ)
    (st : (Nat → Nat → ℚ) × List Ins) (dmc : Nat × Nat × ℚ) :
    Option ((Nat → Nat → ℚ) × List Ins) :=
  let master := dmc.2.1
  let coeff := dmc.2.2
  let arow0 : Nat → ℚ := fun k => coeff * A k slave_local
  let acol0 : Nat → ℚ := fun k => coeff * A slave_local k
  let amaster : ℚ := coeff * arow0 slave_local
  let acol1 := upd acol0 slave_local 0
  let arow1 := upd arow0 slave_local 0
  (optFold (otherSlaveStep local_pos slaves mastersLocal coefficients offsets
      cell_slaves gi s0 slave_index master)
      (arow1, acol1, ([] : List Ins))
      (List.range (global_slave_indices slaves cell_slaves).length)).map
    (fun r =>
      let mpc_pos := local_pos.set slave_local master
      let rowIns := (List.range n).map (fun k => (mpc_pos.getD k 0, master, r.1 k))
      let colIns := (List.range n).map (fun k => (master, mpc_pos.getD k 0, r.2.1 k))
      let sameIns := ((cm.drop (dmc.1 + 1)).zip (cc.drop (dmc.1 + 1))).foldl
        (fun acc p => acc ++ [(master, p.1, coeff * p.2 * A slave_local slave_local),
                              (p.1, master, coeff * p.2 * A slave_local slave_local)]) []
      (zeroRowCol st.1 slave_local,
        st.2 ++ r.2.2 ++ rowIns ++ colIns ++ [(master, master, amaster)] ++ sameIns))

/-- One iteration of the slave loop (assemble_matrix.py lines 258-267): fetch
the slave's master/coefficient slices, resolve its local position (abort when
absent), and run the enumerated master loop. -/
def slaveStep (A : Nat → Nat → ℚ) (n : Nat)
    (local_pos slaves mastersLocal : List Nat) (coefficients : List ℚ)
    (offsets cell_slaves : List Nat) (gi : Nat → Nat)
    (st : (Nat → Nat → ℚ) × List Ins) (s0 : Nat) :
    Option ((Nat → Nat → ℚ) × List Ins) :=
  let slave_index := (global_slave_indices slaves cell_slaves).getD s0 0
  let cm := cellMastersOf mastersLocal offsets slave_index
  let cc := cellCoeffsOf coefficients offsets slave_index
  (slave_global_to_local_pos (slaves.getD slave_index 0) gi local_pos).bind
    (fun slave_local =>
      optFold (masterStep A n local_pos slaves mastersLocal coefficients offsets
        cell_slaves gi s0 slave_index slave_local cm cc) st (cm.zip cc).enum)

/-- Embeds `modify_mpc_cell` (assemble_matrix.py lines 216-378) for one cell.
`A` is the incoming local element matrix; the copy `A_local_copy` taken before
any zeroing is `A` itself, which every master contribution reads, while the
first component of the state carries the progressively zeroed `A_local`.
Returns the final `A_local` and the list of additive global insertions, or
`none` when an assertion aborts. -/
def modify_mpc_cell (A : Nat → Nat → ℚ) (n : Nat)
    (local_pos slaves mastersLocal : List Nat) (coefficients : List ℚ)
    (offsets cell_slaves : List Nat) (gi : Nat → Nat) :
    Option ((Nat → Nat → ℚ) × List Ins) :=
  optFold (slaveStep A n local_pos slaves mastersLocal coefficients offsets cell_slaves gi)
    (A, []) (List.range (global_slave_indices slaves cell_slaves).length)

/-- The driver's local insertion (assemble_matrix.py lines 193-197): the
(possibly modified) local matrix added at its original local addresses. -/
def localIns (M : Nat → Nat → ℚ) (local_pos : List Nat) (n : Nat) : List Ins :=
  (List.range n).flatMap (fun i =>
    (List.range n).map (fun j => (local_pos.getD i 0, local_pos.getD j 0, M i j)))

/-- The full additive contribution of one slave cell (assemble_matrix.py lines
187-197): the transform's emissions followed by the insertion of the reduced
local matrix. -/
def cellContribution (A : Nat → Nat → ℚ) (n : Nat)
    (local_pos slaves mastersLocal : List Nat) (coefficients : List ℚ)
    (offsets cell_slaves : List Nat) (gi : Nat → Nat) : Option (List Ins) :=
  (modify_mpc_cell A n local_pos slaves mastersLocal coefficients offsets cell_slaves gi).map
    (fun p => p.2 ++ localIns p.1 local_pos n)

/-- Dirichlet zeroing of the local matrix (assemble_matrix.py lines 179-185):
rows and columns whose local dof is a bc dof are zeroed before the transform. -/
def bcZero (A : Nat → Nat → ℚ) (bcs local_pos : List Nat) : Nat → Nat → ℚ :=
  fun i j =>
    if (i < local_pos.length ∧ in_numpy_array bcs (local_pos.getD i 0))
        ∨ (j < local_pos.length ∧ in_numpy_array bcs (local_pos.getD j 0)) then 0
    else A i j

/-- The per-cell pipeline of `assemble_matrix_numba` (assemble_matrix.py lines
165-197): Dirichlet zeroing first, then the constraint transform (whose
pre-zeroing copy is therefore taken after the bc zeroing), then the local
insertion. -/
def assembleCellBC (A : Nat → Nat → ℚ) (bcs : List Nat) (n : Nat)
    (local_pos slaves mastersLocal : List Nat) (coefficients : List ℚ)
    (offsets cell_slaves : List Nat) (gi : Nat → Nat) : Option (List Ins) :=
  cellContribution (bcZero A bcs local_pos) n local_pos slaves mastersLocal
    coefficients offsets cell_slaves gi

/-- Embeds `add_diagonal` (assemble_matrix.py lines 105-120): one unit
insertion per dof of the list, performed unconditionally by the calling
process. -/
def add_diagonal_inserts (dofs : List Nat) : List Ins :=
  dofs.map (fun dof => (dof, dof, (1 : ℚ)))

/-- Modelled from the spec: the PETSc `InsertMode.INSERT` overwrite semantics
used by `add_diagonal` comes from `numba_setup.py`, which is not under `src/`;
§4.1/§4.3 of the spec fix it as overwrite (never accumulate). -/
def applyOverwrite (M : Nat → Nat → ℚ) (L : List Ins) : Nat → Nat → ℚ :=
  L.foldl (fun M t => fun i j => if i = t.1 ∧ j = t.2.1 then t.2.2 else M i j) M

/-- A process's view in the diagonal fix-up: the slave dofs it holds (owned or
ghost) and its owned index range. -/
structure RankView where
  slaves : List Nat
  ownedLo : Nat
  ownedHi : Nat

/-- Ownership of a dof by a process. -/
def owns (r : RankView) (d : Nat) : Prop :=
  r.ownedLo ≤ d ∧ d < r.ownedHi

/-! ## Embedding of `assemble_vector.py` -/

/-- Embeds `modify_mpc_contributions` (assemble_vector.py lines 216-258) for
one cell: for each slave of the cell, each of its masters, and each local
position whose global index matches the slave, add `coeff * b_copy[k]` to the
(local) master entry of `b` and zero `b_local[k]`. -/
def modify_mpc_contributions (b b_local b_copy : Nat → ℚ)
    (glob slaves mastersLocal : List Nat) (coefficients : List ℚ)
    (offsets cell_slaves : List Nat) (gi : Nat → Nat) : (Nat → ℚ) × (Nat → ℚ) :=
  let gsl := global_slave_indices slaves cell_slaves
  (List.range gsl.length).foldl (fun st s0 =>
    let slave_index := gsl.getD s0 0
    let cm := cellMastersOf mastersLocal offsets slave_index
    let cc := cellCoeffsOf coefficients offsets slave_index
    (List.range cm.length).foldl (fun st m0 =>
      (List.range glob.length).foldl (fun st k =>
        if gi (glob.getD k 0) = slaves.getD slave_index 0 then
          (upd st.1 (cm.getD m0 0) (st.1 (cm.getD m0 0) + cc.getD m0 0 * b_copy k),
           upd st.2 k 0)
        else st) st) st) (b, b_local)

/-- The write-back loop of `assemble_cells` (assemble_vector.py lines 160-162):
`b[dofmap[j]] += b_local[j] - b_copy[j]` for every local position. -/
def writeback (b b_local b_copy : Nat → ℚ) (glob : List Nat) (n : Nat) : Nat → ℚ :=
  (List.range n).foldl (fun bb j =>
    upd bb (glob.getD j 0) (bb (glob.getD j 0) + (b_local j - b_copy j))) b

/-- One slave cell of the MPC vector pass (assemble_vector.py lines 148-162):
copy the local vector, run the transform, then write back only the
differences. -/
def assemble_cell_vector (b b_local : Nat → ℚ)
    (glob slaves mastersLocal : List Nat) (coefficients : List ℚ)
    (offsets cell_slaves : List Nat) (gi : Nat → Nat) (n : Nat) : Nat → ℚ :=
  let b_copy := b_local
  let r := modify_mpc_contributions b b_local b_copy glob slaves mastersLocal
    coefficients offsets cell_slaves gi
  writeback r.1 r.2 b_copy glob n

/-! ## Pure mirrors of the transform used to state its characterization -/

/-- The resolved local position of the `s0`-th cell slave (default 0 when the
resolution fails; only used under a success hypothesis). -/
def locOfD (local_pos slaves cell_slaves : List Nat) (gi : Nat → Nat) (s0 : Nat) : Nat :=
  (slave_global_to_local_pos
    (slaves.getD ((global_slave_indices slaves cell_slaves).getD s0 0) 0) gi local_pos).getD 0

/-- Pure mirror of `otherSlaveStep` with resolutions replaced by `locOfD`. -/
def oStepD (local_pos slaves mastersLocal : List Nat) (coefficients : List ℚ)
    (offsets cell_slaves : List Nat) (gi : Nat → Nat)
    (s0 slave_index master : Nat)
    (st : (Nat → ℚ) × (Nat → ℚ) × List Ins) (o : Nat) :
    (Nat → ℚ) × (Nat → ℚ) × List Ins :=
  let other_slave := (global_slave_indices slaves cell_slaves).getD o 0
  if other_slave = slave_index then st
  else
    ((cellMastersOf mastersLocal offsets other_slave).zip
      (cellCoeffsOf coefficients offsets other_slave)).foldl
      (fun s p => crossMasterStep s0 o master
        (locOfD local_pos slaves cell_slaves gi o) p.1 p.2 s) st

/-- The state of the extracted row/column and the cross emissions after the
other-slave loop of one `(slave, master)` iteration. -/
def oResultD (A : Nat → Nat → ℚ)
    (local_pos slaves mastersLocal : List Nat) (coefficients : List ℚ)
    (offsets cell_slaves : List Nat) (gi : Nat → Nat)
    (s0 slave_index slave_local master : Nat) (coeff : ℚ) :
    (Nat → ℚ) × (Nat → ℚ) × List Ins :=
  (List.range (global_slave_indices slaves cell_slaves).length).foldl
    (oStepD local_pos slaves mastersLocal coefficients offsets cell_slaves gi
      s0 slave_index master)
    (upd (fun k => coeff * A k slave_local) slave_local 0,
     upd (fun k => coeff * A slave_local k) slave_local 0, ([] : List Ins))

/-- The row block inserted at `(mpc_pos, master)` in one `(slave, master)`
iteration. -/
def rowOfD (A : Nat → Nat → ℚ) (n : Nat)
    (local_pos slaves mastersLocal : List Nat) (coefficients : List ℚ)
    (offsets cell_slaves : List Nat) (gi : Nat → Nat)
    (s0 slave_index slave_local master : Nat) (coeff : ℚ) : List Ins :=
  (List.range n).map (fun k => ((local_pos.set slave_local master).getD k 0, master,
    (oResultD A local_pos slaves mastersLocal coefficients offsets cell_slaves gi
      s0 slave_index slave_local master coeff).1 k))

/-- The column block inserted at `(master, mpc_pos)` in one `(slave, master)`
iteration. -/
def colOfD (A : Nat → Nat → ℚ) (n : Nat)
    (local_pos slaves mastersLocal : List Nat) (coefficients : List ℚ)
    (offsets cell_slaves : List Nat) (gi : Nat → Nat)
    (s0 slave_index slave_local master : Nat) (coeff : ℚ) : List Ins :=
  (List.range n).map (fun k => (master, (local_pos.set slave_local master).getD k 0,
    (oResultD A local_pos slaves mastersLocal coefficients offsets cell_slaves gi
      s0 slave_index slave_local master coeff).2.1 k))

/-- The same-slave cross-master block of one `(slave, master)` iteration. -/
def sameOfD (A : Nat → Nat → ℚ) (slave_local : Nat) (cm : List Nat) (cc : List ℚ)
    (d master : Nat) (coeff : ℚ) : List Ins :=
  ((cm.drop (d + 1)).zip (cc.drop (d + 1))).flatMap
    (fun p => [(master, p.1, coeff * p.2 * A slave_local slave_local),
               (p.1, master, coeff * p.2 * A slave_local slave_local)])

/-- All emissions of one `(slave, master)` iteration: cross terms, row block,
column block, the master-diagonal term `coeff² * A[ℓ, ℓ]`, and the same-slave
cross-master terms. -/
def masterBlockD (A : Nat → Nat → ℚ) (n : Nat)
    (local_pos slaves mastersLocal : List Nat) (coefficients : List ℚ)
    (offsets cell_slaves : List Nat) (gi : Nat → Nat)
    (s0 slave_index slave_local : Nat) (cm : List Nat) (cc : List ℚ)
    (dmc : Nat × Nat × ℚ) : List Ins :=
  (oResultD A local_pos slaves mastersLocal coefficients offsets cell_slaves gi
      s0 slave_index slave_local dmc.2.1 dmc.2.2).2.2 ++
  rowOfD A n local_pos slaves mastersLocal coefficients offsets cell_slaves gi
      s0 slave_index slave_local dmc.2.1 dmc.2.2 ++
  colOfD A n local_pos slaves mastersLocal coefficients offsets cell_slaves gi
      s0 slave_index slave_local dmc.2.1 dmc.2.2 ++
  [(dmc.2.1, dmc.2.1, dmc.2.2 * (dmc.2.2 * A slave_local slave_local))] ++
  sameOfD A slave_local cm cc dmc.1 dmc.2.1 dmc.2.2

/-- All emissions of one slave of the cell. -/
def slaveBlockD (A : Nat → Nat → ℚ) (n : Nat)
    (local_pos slaves mastersLocal : List Nat) (coefficients : List ℚ)
    (offsets cell_slaves : List Nat) (gi : Nat → Nat) (s0 : Nat) : List Ins :=
  let slave_index := (global_slave_indices slaves cell_slaves).getD s0 0
  let cm := cellMastersOf mastersLocal offsets slave_index
  let cc := cellCoeffsOf coefficients offsets slave_index
  ((cm.zip cc).enum).flatMap
    (masterBlockD A n local_pos slaves mastersLocal coefficients offsets cell_slaves gi
      s0 slave_index (locOfD local_pos slaves cell_slaves gi s0) cm cc)

/-- All emissions of `modify_mpc_cell` on a successful run. -/
def allInsD (A : Nat → Nat → ℚ) (n : Nat)
    (local_pos slaves mastersLocal : List Nat) (coefficients : List ℚ)
    (offsets cell_slaves : List Nat) (gi : Nat → Nat) : List Ins :=
  (List.range (global_slave_indices slaves cell_slaves).length).flatMap
    (slaveBlockD A n local_pos slaves mastersLocal coefficients offsets cell_slaves gi)

/-- The action of one slave on the carried local matrix: its row/column is
zeroed once per master. -/
def zFoldD (local_pos slaves mastersLocal : List Nat) (coefficients : List ℚ)
    (offsets cell_slaves : List Nat) (gi : Nat → Nat)
    (M : Nat → Nat → ℚ) (s0 : Nat) : Nat → Nat → ℚ :=
  let slave_index := (global_slave_indices slaves cell_slaves).getD s0 0
  (((cellMastersOf mastersLocal offsets slave_index).zip
      (cellCoeffsOf coefficients offsets slave_index)).enum).foldl
    (fun M _ => zeroRowCol M (locOfD local_pos slaves cell_slaves gi s0)) M

/-- Pure mirror of `slaveStep` on a successful run. -/
def slaveStepD (A : Nat → Nat → ℚ) (n : Nat)
    (local_pos slaves mastersLocal : List Nat) (coefficients : List ℚ)
    (offsets cell_slaves : List Nat) (gi : Nat → Nat)
    (st : (Nat → Nat → ℚ) × List Ins) (s0 : Nat) : (Nat → Nat → ℚ) × List Ins :=
  (zFoldD local_pos slaves mastersLocal coefficients offsets cell_slaves gi st.1 s0,
    st.2 ++ slaveBlockD A n local_pos slaves mastersLocal coefficients offsets cell_slaves gi s0)

/-- The final reduced local matrix of `modify_mpc_cell` on a successful run:
the slave row/column is zeroed once per master of each slave of the cell. -/
def finalAD (A : Nat → Nat → ℚ)
    (local_pos slaves mastersLocal : List Nat) (coefficients : List ℚ)
    (offsets cell_slaves : List Nat) (gi : Nat → Nat) : Nat → Nat → ℚ :=
  (List.range (global_slave_indices slaves cell_slaves).length).foldl
    (zFoldD local_pos slaves mastersLocal coefficients offsets cell_slaves gi) A

/-- The additive vector emissions of `modify_mpc_contributions`. -/
def vecInsD (b_copy : Nat → ℚ)
    (glob slaves mastersLocal : List Nat) (coefficients : List ℚ)
    (offsets cell_slaves : List Nat) (gi : Nat → Nat) : List (Nat × ℚ) :=
  let gsl := global_slave_indices slaves cell_slaves
  (List.range gsl.length).flatMap (fun s0 =>
    let slave_index := gsl.getD s0 0
    let cm := cellMastersOf mastersLocal offsets slave_index
    let cc := cellCoeffsOf coefficients offsets slave_index
    (List.range cm.length).flatMap (fun m0 =>
      (List.range glob.length).flatMap (fun k =>
        if gi (glob.getD k 0) = slaves.getD slave_index 0 then
          [(cm.getD m0 0, cc.getD m0 0 * b_copy k)]
        else [])))

/-- Local position `j` is zeroed by the vector transform: it is a position of
the cell whose global index matches a cell slave having at least one master. -/
def slaveZeroed (glob slaves mastersLocal : List Nat)
    (offsets cell_slaves : List Nat) (gi : Nat → Nat) (j : Nat) : Prop :=
  j < glob.length ∧
  ∃ s0 ∈ List.range (global_slave_indices slaves cell_slaves).length,
    gi (glob.getD j 0) =
      slaves.getD ((global_slave_indices slaves cell_slaves).getD s0 0) 0 ∧
    cellMastersOf mastersLocal offsets
      ((global_slave_indices slaves cell_slaves).getD s0 0) ≠ []

/-! ## Auxiliary notions used to state the characterizations -/

/-- Transpose of an insertion. -/
def swapT (t : Ins) : Ins := (t.2.1, t.1, t.2.2)

/-- Address of an insertion. -/
def addrOf (t : Ins) : Nat × Nat := (t.1, t.2.1)

/-- The accumulated matrix of an insertion list is symmetric. -/
def symAccum (L : List Ins) : Prop := ∀ i j, accum L i j = accum L j i

/-- Every slave listed for the cell resolves to a local position (no numba
assertion fires). -/
def resOK (local_pos slaves cell_slaves : List Nat) (gi : Nat → Nat) : Prop :=
  ∀ t, t < (global_slave_indices slaves cell_slaves).length →
    (slave_global_to_local_pos
      (slaves.getD ((global_slave_indices slaves cell_slaves).getD t 0) 0) gi local_pos).isSome

/-- Closed form of the emissions of the other-master loop for one other slave:
`a`/`c` are the extracted row/column values at the other slave's local position
when the loop starts; the entry is zeroed after the first other master, so
later masters read `0`. -/
def crossEmitsD (s0 o master : Nat) (a c : ℚ) : List (Nat × ℚ) → List Ins
  | [] => []
  | p :: zs =>
    (if s0 < o then [(master, p.1, p.2 * a), (p.1, master, p.2 * c)] else []) ++
    crossEmitsD s0 o master 0 0 zs

/-- The cross-term addresses contributed by one other slave of one
`(slave, master)` iteration: one `(master, m')` and one `(m', master)` pair per
other master `m'`, present only under the visitation-order guard. -/
def crossAddrD (slaves mastersLocal : List Nat) (coefficients : List ℚ)
    (offsets cell_slaves : List Nat) (s0 slave_index master : Nat) (o : Nat) :
    List (Nat × Nat) :=
  let other_slave := (global_slave_indices slaves cell_slaves).getD o 0
  if other_slave = slave_index then []
  else if s0 < o then
    ((cellMastersOf mastersLocal offsets other_slave).zip
      (cellCoeffsOf coefficients offsets other_slave)).flatMap
      (fun p => [(master, p.1), (p.1, master)])
  else []

/-! ## Concrete instances used by witnesses and counterexamples -/

/-- A non-symmetric 2×2 local element matrix `[[1, 2], [3, 4]]`. -/
def Awit : Nat → Nat → ℚ := fun i j =>
  if i = 0 ∧ j = 0 then 1 else if i = 0 then 2 else if j = 0 then 3 else 4

/-- A symmetric 2×2 local element matrix `[[4, -2], [-2, 4]]`. -/
def Asym : Nat → Nat → ℚ := fun i j =>
  if i = j then 4 else -2

/-! ## Lemmas: aborting folds -/

@[simp] lemma optFold_nil {σ α : Type} (f : σ → α → Option σ) (st : σ) :
    optFold f st [] = some st := rfl

lemma optFold_cons {σ α : Type} (f : σ → α → Option σ) (st : σ) (a : α) (l : List α) :
    optFold f st (a :: l) =
      match f st a with
      | none => none
      | some st' => optFold f st' l := rfl

/-- If every step succeeds and agrees with a pure step function, the aborting
fold is the pure fold. -/
lemma optFold_eq_foldl {σ α : Type} (f : σ → α → Option σ) (g : σ → α → σ)
    (l : List α) (h : ∀ st, ∀ a ∈ l, f st a = some (g st a)) :
    ∀ st, optFold f st l = some (l.foldl g st) := by
  induction l with
  | nil => intro st; rfl
  | cons a l ih =>
    intro st
    rw [optFold_cons, h st a (List.mem_cons_self a l)]
    exact ih (fun st' b hb => h st' b (List.mem_cons_of_mem a hb)) (g st a)

/-- If a step fails from every state, reaching it aborts the fold. -/
lemma optFold_none_of_mem {σ α : Type} (f : σ → α → Option σ) (a : α)
    (ha : ∀ st, f st a = none) :
    ∀ (l : List α), a ∈ l → ∀ st, optFold f st l = none := by
  intro l
  induction l with
  | nil => intro h; cases h
  | cons b l ih =>
    intro hmem st
    rcases List.mem_cons.mp hmem with h | h
    · subst h; rw [optFold_cons, ha st]
    · rw [optFold_cons]
      cases hf : f st b with
      | none => rfl
      | some st' => exact ih h st'

/-- A successful fold means every element was processed successfully from some
state. -/
lemma optFold_some_of_mem {σ α : Type} (f : σ → α → Option σ) :
    ∀ (l : List α) (st r : σ), optFold f st l = some r →
      ∀ a ∈ l, ∃ st', (f st' a).isSome := by
  intro l
  induction l with
  | nil => intro st r _ a ha; cases ha
  | cons b l ih =>
    intro st r hr a ha
    rw [optFold_cons] at hr
    cases hf : f st b with
    | none => rw [hf] at hr; cases hr
    | some st' =>
      rw [hf] at hr
      rcases List.mem_cons.mp ha with h | h
      · exact ⟨st, by rw [h, hf]; rfl⟩
      · exact ih st' r hr a h

/-! ## Lemmas: accumulated values -/

@[simp] lemma accum_nil (i j : Nat) : accum [] i j = 0 := rfl

lemma accum_cons (t : Ins) (L : List Ins) (i j : Nat) :
    accum (t :: L) i j = (if t.1 = i ∧ t.2.1 = j then t.2.2 else 0) + accum L i j := by
  simp [accum]

lemma accum_append (L M : List Ins) (i j : Nat) :
    accum (L ++ M) i j = accum L i j + accum M i j := by
  simp [accum]

lemma accum_flatMap {α : Type} (l : List α) (f : α → List Ins) (i j : Nat) :
    accum (l.flatMap f) i j = (l.map (fun x => accum (f x) i j)).sum := by
  induction l with
  | nil => simp
  | cons a l ih => simp [List.flatMap_cons, accum_append, ih]

lemma ite_and_swap (a b : Prop) [Decidable a] [Decidable b] (v : ℚ) :
    (if a ∧ b then v else 0) = if b ∧ a then v else 0 := by
  by_cases ha : a <;> by_cases hb : b <;> simp [ha, hb]

lemma accum_map_swapT (L : List Ins) (i j : Nat) :
    accum (L.map swapT) i j = accum L j i := by
  induction L with
  | nil => rfl
  | cons t L ih =>
    simp only [List.map_cons, accum_cons, ih, swapT]
    rw [ite_and_swap]

lemma accum_singleton (t : Ins) (i j : Nat) :
    accum [t] i j = if t.1 = i ∧ t.2.1 = j then t.2.2 else 0 := by
  simp [accum]

/-- A transpose pair of insertions with equal values accumulates
symmetrically. -/
lemma symAccum_pair (a b : Nat) (v : ℚ) : symAccum [(a, b, v), (b, a, v)] := by
  intro i j
  simp only [accum_cons, accum_nil, add_zero]
  rw [ite_and_swap (a = i), ite_and_swap (b = i), add_comm]

lemma symAccum_nil : symAccum [] := fun _ _ => rfl

lemma symAccum_append {L M : List Ins} (hL : symAccum L) (hM : symAccum M) :
    symAccum (L ++ M) := by
  intro i j
  rw [accum_append, accum_append, hL i j, hM i j]

lemma symAccum_flatMap {α : Type} (l : List α) (f : α → List Ins)
    (h : ∀ a ∈ l, symAccum (f a)) : symAccum (l.flatMap f) := by
  induction l with
  | nil => exact symAccum_nil
  | cons a l ih =>
    rw [List.flatMap_cons]
    exact symAccum_append (h a (List.mem_cons_self a l))
      (ih (fun b hb => h b (List.mem_cons_of_mem a hb)))

/-- A list followed by its transpose accumulates symmetrically. -/
lemma symAccum_append_map_swapT (L : List Ins) : symAccum (L ++ L.map swapT) := by
  intro i j
  rw [accum_append, accum_append, accum_map_swapT, accum_map_swapT, add_comm]

lemma symAccum_singleton_diag (a : Nat) (v : ℚ) : symAccum [(a, a, v)] := by
  intro i j
  rw [accum_singleton, accum_singleton, ite_and_swap]

/-- Every value in the list is zero iff the list accumulates to zero
everywhere; the direction we use. -/
lemma accum_eq_zero_of_vals (L : List Ins) (h : ∀ t ∈ L, t.2.2 = 0) (i j : Nat) :
    accum L i j = 0 := by
  induction L with
  | nil => rfl
  | cons t L ih =>
    rw [accum_cons, ih (fun s hs => h s (List.mem_cons_of_mem t hs)),
      h t (List.mem_cons_self t L)]
    simp

/-! ## Lemmas: state-and-emission folds -/

/-- A fold whose step transforms the carried matrix and appends emissions that
do not depend on the state splits into a matrix fold and a flat emission
list. -/
lemma foldl_state_emit {α β : Type} (Z : β → α → β) (h : α → List Ins) :
    ∀ (l : List α) (M : β) (acc : List Ins),
      l.foldl (fun st x => (Z st.1 x, st.2 ++ h x)) (M, acc) =
        (l.foldl Z M, acc ++ l.flatMap h) := by
  intro l
  induction l with
  | nil => intro M acc; simp
  | cons a l ih =>
    intro M acc
    simp only [List.foldl_cons, List.flatMap_cons, ih, List.append_assoc]

/-- Emitting pairs by repeated append is a flat map. -/
lemma foldl_append_pairs {α : Type} (x y : α → Ins) :
    ∀ (l : List α) (acc : List Ins),
      l.foldl (fun acc p => acc ++ [x p, y p]) acc =
        acc ++ l.flatMap (fun p => [x p, y p]) := by
  intro l
  induction l with
  | nil => intro acc; simp
  | cons a l ih =>
    intro acc
    simp only [List.foldl_cons, List.flatMap_cons, ih, List.append_assoc]

/-! ## Characterization of `modify_mpc_cell` on successful runs -/

section Decomp

variable (A : Nat → Nat → ℚ) (n : Nat)
variable (local_pos slaves mastersLocal : List Nat) (coefficients : List ℚ)
variable (offsets cell_slaves : List Nat) (gi : Nat → Nat)

lemma otherSlaveStep_eq
    (hres : resOK local_pos slaves cell_slaves gi)
    (s0 slave_index master : Nat)
    (st : (Nat → ℚ) × (Nat → ℚ) × List Ins) (o : Nat)
    (ho : o < (global_slave_indices slaves cell_slaves).length) :
    otherSlaveStep local_pos slaves mastersLocal coefficients offsets cell_slaves gi
      s0 slave_index master st o =
    some (oStepD local_pos slaves mastersLocal coefficients offsets cell_slaves gi
      s0 slave_index master st o) := by
  unfold otherSlaveStep oStepD
  by_cases hskip : (global_slave_indices slaves cell_slaves).getD o 0 = slave_index
  · rw [if_pos hskip, if_pos hskip]
  · have h := hres o ho
    cases hr : slave_global_to_local_pos
        (slaves.getD ((global_slave_indices slaves cell_slaves).getD o 0) 0) gi local_pos with
    | none => rw [hr] at h; simp at h
    | some oLoc =>
      have hloc : locOfD local_pos slaves cell_slaves gi o = oLoc := by
        unfold locOfD; rw [hr]; rfl
      rw [if_neg hskip, if_neg hskip, hr, hloc]
      rfl

lemma masterStep_eq
    (hres : resOK local_pos slaves cell_slaves gi)
    (s0 slave_index slave_local : Nat) (cm : List Nat) (cc : List ℚ)
    (st : (Nat → Nat → ℚ) × List Ins) (dmc : Nat × Nat × ℚ) :
    masterStep A n local_pos slaves mastersLocal coefficients offsets cell_slaves gi
      s0 slave_index slave_local cm cc st dmc =
    some (zeroRowCol st.1 slave_local,
      st.2 ++ masterBlockD A n local_pos slaves mastersLocal coefficients offsets
        cell_slaves gi s0 slave_index slave_local cm cc dmc) := by
  unfold masterStep
  dsimp only
  rw [optFold_eq_foldl _
      (oStepD local_pos slaves mastersLocal coefficients offsets cell_slaves gi
        s0 slave_index dmc.2.1)
      (List.range (global_slave_indices slaves cell_slaves).length)
      (fun st' o ho => otherSlaveStep_eq local_pos slaves mastersLocal coefficients
        offsets cell_slaves gi hres s0 slave_index dmc.2.1 st' o (List.mem_range.mp ho))]
  simp only [Option.map_some']
  unfold masterBlockD oResultD rowOfD colOfD sameOfD
  rw [foldl_append_pairs]
  simp only [List.nil_append, List.append_assoc]
  rfl

lemma slaveStep_eq
    (hres : resOK local_pos slaves cell_slaves gi)
    (st : (Nat → Nat → ℚ) × List Ins) (s0 : Nat)
    (hs0 : s0 < (global_slave_indices slaves cell_slaves).length) :
    slaveStep A n local_pos slaves mastersLocal coefficients offsets cell_slaves gi st s0 =
    some (slaveStepD A n local_pos slaves mastersLocal coefficients offsets
      cell_slaves gi st s0) := by
  have h := hres s0 hs0
  cases hr : slave_global_to_local_pos
      (slaves.getD ((global_slave_indices slaves cell_slaves).getD s0 0) 0) gi local_pos with
  | none => rw [hr] at h; simp at h
  | some L =>
    have hloc : locOfD local_pos slaves cell_slaves gi s0 = L := by
      unfold locOfD; rw [hr]; rfl
    unfold slaveStep slaveStepD zFoldD slaveBlockD
    dsimp only
    rw [hr, hloc]
    simp only [Option.some_bind]
    rw [optFold_eq_foldl _
        (fun st' dmc =>
          (zeroRowCol st'.1 L,
            st'.2 ++ masterBlockD A n local_pos slaves mastersLocal coefficients offsets
              cell_slaves gi s0 ((global_slave_indices slaves cell_slaves).getD s0 0) L
              (cellMastersOf mastersLocal offsets
                ((global_slave_indices slaves cell_slaves).getD s0 0))
              (cellCoeffsOf coefficients offsets
                ((global_slave_indices slaves cell_slaves).getD s0 0)) dmc))
        _
        (fun st' dmc _ => masterStep_eq A n local_pos slaves mastersLocal coefficients
          offsets cell_slaves gi hres s0
          ((global_slave_indices slaves cell_slaves).getD s0 0) L _ _ st' dmc)]
    rw [foldl_state_emit (fun M _ => zeroRowCol M L)]

lemma foldl_slaveStepD (l : List Nat) :
    ∀ (M : Nat → Nat → ℚ) (acc : List Ins),
      l.foldl (slaveStepD A n local_pos slaves mastersLocal coefficients offsets
        cell_slaves gi) (M, acc) =
      (l.foldl (zFoldD local_pos slaves mastersLocal coefficients offsets cell_slaves gi) M,
        acc ++ l.flatMap (slaveBlockD A n local_pos slaves mastersLocal coefficients offsets
          cell_slaves gi)) := by
  induction l with
  | nil => intro M acc; simp
  | cons a l ih =>
    intro M acc
    simp only [List.foldl_cons, List.flatMap_cons, ih, slaveStepD, List.append_assoc]

lemma modify_eq
    (hres : resOK local_pos slaves cell_slaves gi) :
    modify_mpc_cell A n local_pos slaves mastersLocal coefficients offsets cell_slaves gi =
    some (finalAD A local_pos slaves mastersLocal coefficients offsets cell_slaves gi,
      allInsD A n local_pos slaves mastersLocal coefficients offsets cell_slaves gi) := by
  unfold modify_mpc_cell
  rw [optFold_eq_foldl _
      (slaveStepD A n local_pos slaves mastersLocal coefficients offsets cell_slaves gi)
      (List.range (global_slave_indices slaves cell_slaves).length)
      (fun st s0 hs0 => slaveStep_eq A n local_pos slaves mastersLocal coefficients
        offsets cell_slaves gi hres st s0 (List.mem_range.mp hs0))]
  rw [foldl_slaveStepD]
  unfold finalAD allInsD
  simp only [List.nil_append]

lemma resOK_of_modify_some
    (p : (Nat → Nat → ℚ) × List Ins)
    (h : modify_mpc_cell A n local_pos slaves mastersLocal coefficients offsets
      cell_slaves gi = some p) :
    resOK local_pos slaves cell_slaves gi := by
  intro t ht
  obtain ⟨st, hst⟩ := optFold_some_of_mem _ _ _ _ h t (List.mem_range.mpr ht)
  unfold slaveStep at hst
  dsimp only at hst
  cases hr : slave_global_to_local_pos
      (slaves.getD ((global_slave_indices slaves cell_slaves).getD t 0) 0) gi local_pos with
  | none => rw [hr] at hst; simp at hst
  | some L => simp

lemma modify_eq_of_some
    (p : (Nat → Nat → ℚ) × List Ins)
    (h : modify_mpc_cell A n local_pos slaves mastersLocal coefficients offsets
      cell_slaves gi = some p) :
    p = (finalAD A local_pos slaves mastersLocal coefficients offsets cell_slaves gi,
      allInsD A n local_pos slaves mastersLocal coefficients offsets cell_slaves gi) := by
  have hres := resOK_of_modify_some A n local_pos slaves mastersLocal coefficients
    offsets cell_slaves gi p h
  have h2 := modify_eq A n local_pos slaves mastersLocal coefficients offsets
    cell_slaves gi hres
  rw [h] at h2
  exact Option.some_inj.mp h2

end Decomp

/-! ## Lemmas: the other-master inner loop -/

@[simp] lemma upd_same (f : Nat → ℚ) (i : Nat) (v : ℚ) : upd f i v i = v := by
  simp [upd]

lemma upd_ne (f : Nat → ℚ) (i k : Nat) (v : ℚ) (h : k ≠ i) : upd f i v k = f k := by
  simp [upd, h]

lemma crossFold_fst (s0 o master oLoc : Nat) :
    ∀ (zs : List (Nat × ℚ)) (st : (Nat → ℚ) × (Nat → ℚ) × List Ins) (p : Nat),
      ((zs.foldl (fun s q => crossMasterStep s0 o master oLoc q.1 q.2 s) st).1) p =
        if zs ≠ [] ∧ p = oLoc then 0 else st.1 p := by
  intro zs
  induction zs with
  | nil => intro st p; simp
  | cons z zs ih =>
    intro st p
    rw [List.foldl_cons, ih]
    by_cases hp : p = oLoc <;> by_cases hzs : zs = [] <;>
      simp [hp, hzs, crossMasterStep, upd]

lemma crossFold_snd (s0 o master oLoc : Nat) :
    ∀ (zs : List (Nat × ℚ)) (st : (Nat → ℚ) × (Nat → ℚ) × List Ins) (p : Nat),
      ((zs.foldl (fun s q => crossMasterStep s0 o master oLoc q.1 q.2 s) st).2.1) p =
        if zs ≠ [] ∧ p = oLoc then 0 else st.2.1 p := by
  intro zs
  induction zs with
  | nil => intro st p; simp
  | cons z zs ih =>
    intro st p
    rw [List.foldl_cons, ih]
    by_cases hp : p = oLoc <;> by_cases hzs : zs = [] <;>
      simp [hp, hzs, crossMasterStep, upd]

lemma crossFold_emit (s0 o master oLoc : Nat) :
    ∀ (zs : List (Nat × ℚ)) (st : (Nat → ℚ) × (Nat → ℚ) × List Ins),
      ((zs.foldl (fun s q => crossMasterStep s0 o master oLoc q.1 q.2 s) st).2.2) =
        st.2.2 ++ crossEmitsD s0 o master (st.1 oLoc) (st.2.1 oLoc) zs := by
  intro zs
  induction zs with
  | nil => intro st; simp [crossEmitsD]
  | cons z zs ih =>
    intro st
    rw [List.foldl_cons, ih]
    simp [crossMasterStep, crossEmitsD, List.append_assoc]

lemma crossEmitsD_of_not_guard (s0 o master : Nat) (h : ¬ s0 < o) :
    ∀ (a c : ℚ) (zs : List (Nat × ℚ)), crossEmitsD s0 o master a c zs = [] := by
  intro a c zs
  induction zs generalizing a c with
  | nil => rfl
  | cons z zs ih => simp [crossEmitsD, h, ih]

lemma crossEmitsD_map_addr (s0 o master : Nat) (h : s0 < o) :
    ∀ (a c : ℚ) (zs : List (Nat × ℚ)),
      (crossEmitsD s0 o master a c zs).map addrOf =
        zs.flatMap (fun p => [(master, p.1), (p.1, master)]) := by
  intro a c zs
  induction zs generalizing a c with
  | nil => rfl
  | cons z zs ih => simp [crossEmitsD, h, ih, addrOf]

lemma crossEmitsD_vals_zero (s0 o master : Nat) :
    ∀ (zs : List (Nat × ℚ)), ∀ t ∈ crossEmitsD s0 o master 0 0 zs, t.2.2 = 0 := by
  intro zs
  induction zs with
  | nil => intro t ht; cases ht
  | cons z zs ih =>
    intro t ht
    rw [crossEmitsD] at ht
    rcases List.mem_append.mp ht with h1 | h2
    · by_cases hg : s0 < o
      · rw [if_pos hg] at h1
        rcases List.mem_cons.mp h1 with rfl | h1
        · simp
        · rcases List.mem_cons.mp h1 with rfl | h1
          · simp
          · cases h1
      · rw [if_neg hg] at h1; cases h1
    · exact ih t h2

lemma crossEmitsD_len_vals_zero (s0 o master : Nat) (a c : ℚ)
    (ha : a = 0) (hc : c = 0) (zs : List (Nat × ℚ)) :
    ∀ t ∈ crossEmitsD s0 o master a c zs, t.2.2 = 0 := by
  subst ha; subst hc; exact crossEmitsD_vals_zero s0 o master zs

/-! ## Lemmas: the other-slave loop -/

section OFold

variable (local_pos slaves mastersLocal : List Nat) (coefficients : List ℚ)
variable (offsets cell_slaves : List Nat) (gi : Nat → Nat)
variable (s0 slave_index master : Nat)

lemma oStepD_fst (st : (Nat → ℚ) × (Nat → ℚ) × List Ins) (o p : Nat) :
    (oStepD local_pos slaves mastersLocal coefficients offsets cell_slaves gi
      s0 slave_index master st o).1 p =
    if (global_slave_indices slaves cell_slaves).getD o 0 ≠ slave_index ∧
        ((cellMastersOf mastersLocal offsets
            ((global_slave_indices slaves cell_slaves).getD o 0)).zip
          (cellCoeffsOf coefficients offsets
            ((global_slave_indices slaves cell_slaves).getD o 0))) ≠ [] ∧
        p = locOfD local_pos slaves cell_slaves gi o then 0 else st.1 p := by
  unfold oStepD
  by_cases hskip : (global_slave_indices slaves cell_slaves).getD o 0 = slave_index
  · rw [if_pos hskip, if_neg (fun h => h.1 hskip)]
  · rw [if_neg hskip, crossFold_fst]
    by_cases hc : ((cellMastersOf mastersLocal offsets
        ((global_slave_indices slaves cell_slaves).getD o 0)).zip
      (cellCoeffsOf coefficients offsets
        ((global_slave_indices slaves cell_slaves).getD o 0))) ≠ [] ∧
        p = locOfD local_pos slaves cell_slaves gi o
    · rw [if_pos hc, if_pos ⟨hskip, hc.1, hc.2⟩]
    · rw [if_neg hc, if_neg (fun h => hc ⟨h.2.1, h.2.2⟩)]

lemma oStepD_snd (st : (Nat → ℚ) × (Nat → ℚ) × List Ins) (o p : Nat) :
    (oStepD local_pos slaves mastersLocal coefficients offsets cell_slaves gi
      s0 slave_index master st o).2.1 p =
    if (global_slave_indices slaves cell_slaves).getD o 0 ≠ slave_index ∧
        ((cellMastersOf mastersLocal offsets
            ((global_slave_indices slaves cell_slaves).getD o 0)).zip
          (cellCoeffsOf coefficients offsets
            ((global_slave_indices slaves cell_slaves).getD o 0))) ≠ [] ∧
        p = locOfD local_pos slaves cell_slaves gi o then 0 else st.2.1 p := by
  unfold oStepD
  by_cases hskip : (global_slave_indices slaves cell_slaves).getD o 0 = slave_index
  · rw [if_pos hskip, if_neg (fun h => h.1 hskip)]
  · rw [if_neg hskip, crossFold_snd]
    by_cases hc : ((cellMastersOf mastersLocal offsets
        ((global_slave_indices slaves cell_slaves).getD o 0)).zip
      (cellCoeffsOf coefficients offsets
        ((global_slave_indices slaves cell_slaves).getD o 0))) ≠ [] ∧
        p = locOfD local_pos slaves cell_slaves gi o
    · rw [if_pos hc, if_pos ⟨hskip, hc.1, hc.2⟩]
    · rw [if_neg hc, if_neg (fun h => hc ⟨h.2.1, h.2.2⟩)]

lemma oFold_fst_pres_zero (os : List Nat) :
    ∀ (st : (Nat → ℚ) × (Nat → ℚ) × List Ins) (p : Nat), st.1 p = 0 →
      ((os.foldl (oStepD local_pos slaves mastersLocal coefficients offsets cell_slaves gi
        s0 slave_index master) st).1) p = 0 := by
  induction os with
  | nil => intro st p h; exact h
  | cons o os ih =>
    intro st p h
    rw [List.foldl_cons]
    apply ih
    rw [oStepD_fst]
    by_cases hc : (global_slave_indices slaves cell_slaves).getD o 0 ≠ slave_index ∧
        ((cellMastersOf mastersLocal offsets
            ((global_slave_indices slaves cell_slaves).getD o 0)).zip
          (cellCoeffsOf coefficients offsets
            ((global_slave_indices slaves cell_slaves).getD o 0))) ≠ [] ∧
        p = locOfD local_pos slaves cell_slaves gi o
    · rw [if_pos hc]
    · rw [if_neg hc]; exact h

lemma oFold_snd_pres_zero (os : List Nat) :
    ∀ (st : (Nat → ℚ) × (Nat → ℚ) × List Ins) (p : Nat), st.2.1 p = 0 →
      ((os.foldl (oStepD local_pos slaves mastersLocal coefficients offsets cell_slaves gi
        s0 slave_index master) st).2.1) p = 0 := by
  induction os with
  | nil => intro st p h; exact h
  | cons o os ih =>
    intro st p h
    rw [List.foldl_cons]
    apply ih
    rw [oStepD_snd]
    by_cases hc : (global_slave_indices slaves cell_slaves).getD o 0 ≠ slave_index ∧
        ((cellMastersOf mastersLocal offsets
            ((global_slave_indices slaves cell_slaves).getD o 0)).zip
          (cellCoeffsOf coefficients offsets
            ((global_slave_indices slaves cell_slaves).getD o 0))) ≠ [] ∧
        p = locOfD local_pos slaves cell_slaves gi o
    · rw [if_pos hc]
    · rw [if_neg hc]; exact h

lemma oFold_fst_mem (os : List Nat) :
    ∀ (st : (Nat → ℚ) × (Nat → ℚ) × List Ins) (p : Nat),
      ((os.foldl (oStepD local_pos slaves mastersLocal coefficients offsets cell_slaves gi
        s0 slave_index master) st).1) p = st.1 p ∨
      ((os.foldl (oStepD local_pos slaves mastersLocal coefficients offsets cell_slaves gi
        s0 slave_index master) st).1) p = 0 := by
  induction os with
  | nil => intro st p; left; rfl
  | cons o os ih =>
    intro st p
    rw [List.foldl_cons]
    rcases ih (oStepD local_pos slaves mastersLocal coefficients offsets cell_slaves gi
        s0 slave_index master st o) p with h | h
    · rw [h, oStepD_fst]
      by_cases hc : (global_slave_indices slaves cell_slaves).getD o 0 ≠ slave_index ∧
          ((cellMastersOf mastersLocal offsets
              ((global_slave_indices slaves cell_slaves).getD o 0)).zip
            (cellCoeffsOf coefficients offsets
              ((global_slave_indices slaves cell_slaves).getD o 0))) ≠ [] ∧
          p = locOfD local_pos slaves cell_slaves gi o
      · right; rw [if_pos hc]
      · left; rw [if_neg hc]
    · right; exact h

lemma oFold_snd_mem (os : List Nat) :
    ∀ (st : (Nat → ℚ) × (Nat → ℚ) × List Ins) (p : Nat),
      ((os.foldl (oStepD local_pos slaves mastersLocal coefficients offsets cell_slaves gi
        s0 slave_index master) st).2.1) p = st.2.1 p ∨
      ((os.foldl (oStepD local_pos slaves mastersLocal coefficients offsets cell_slaves gi
        s0 slave_index master) st).2.1) p = 0 := by
  induction os with
  | nil => intro st p; left; rfl
  | cons o os ih =>
    intro st p
    rw [List.foldl_cons]
    rcases ih (oStepD local_pos slaves mastersLocal coefficients offsets cell_slaves gi
        s0 slave_index master st o) p with h | h
    · rw [h, oStepD_snd]
      by_cases hc : (global_slave_indices slaves cell_slaves).getD o 0 ≠ slave_index ∧
          ((cellMastersOf mastersLocal offsets
              ((global_slave_indices slaves cell_slaves).getD o 0)).zip
            (cellCoeffsOf coefficients offsets
              ((global_slave_indices slaves cell_slaves).getD o 0))) ≠ [] ∧
          p = locOfD local_pos slaves cell_slaves gi o
      · right; rw [if_pos hc]
      · left; rw [if_neg hc]
    · right; exact h

lemma oStepD_emit (st : (Nat → ℚ) × (Nat → ℚ) × List Ins) (o : Nat) :
    (oStepD local_pos slaves mastersLocal coefficients offsets cell_slaves gi
      s0 slave_index master st o).2.2 =
    st.2.2 ++
      (if (global_slave_indices slaves cell_slaves).getD o 0 = slave_index then []
       else crossEmitsD s0 o master
        (st.1 (locOfD local_pos slaves cell_slaves gi o))
        (st.2.1 (locOfD local_pos slaves cell_slaves gi o))
        ((cellMastersOf mastersLocal offsets
            ((global_slave_indices slaves cell_slaves).getD o 0)).zip
          (cellCoeffsOf coefficients offsets
            ((global_slave_indices slaves cell_slaves).getD o 0)))) := by
  unfold oStepD
  by_cases hskip : (global_slave_indices slaves cell_slaves).getD o 0 = slave_index
  · rw [if_pos hskip, if_pos hskip, List.append_nil]
  · rw [if_neg hskip, if_neg hskip, crossFold_emit]

lemma oFold_emit_addr (os : List Nat) :
    ∀ (st : (Nat → ℚ) × (Nat → ℚ) × List Ins),
      ((os.foldl (oStepD local_pos slaves mastersLocal coefficients offsets cell_slaves gi
        s0 slave_index master) st).2.2).map addrOf =
      st.2.2.map addrOf ++
        os.flatMap (crossAddrD slaves mastersLocal coefficients offsets cell_slaves
          s0 slave_index master) := by
  induction os with
  | nil => intro st; simp
  | cons o os ih =>
    intro st
    rw [List.foldl_cons, ih, oStepD_emit, List.map_append, List.flatMap_cons,
      List.append_assoc]
    congr 2
    unfold crossAddrD
    by_cases hskip : (global_slave_indices slaves cell_slaves).getD o 0 = slave_index
    · rw [if_pos hskip, if_pos hskip]; rfl
    · rw [if_neg hskip, if_neg hskip]
      by_cases hg : s0 < o
      · rw [if_pos hg, crossEmitsD_map_addr s0 o master hg]
      · rw [if_neg hg, crossEmitsD_of_not_guard s0 o master hg]; rfl

lemma oFold_zero_at (os : List Nat) (o : Nat) (ho : o ∈ os)
    (hskip : (global_slave_indices slaves cell_slaves).getD o 0 ≠ slave_index)
    (hzs : ((cellMastersOf mastersLocal offsets
        ((global_slave_indices slaves cell_slaves).getD o 0)).zip
      (cellCoeffsOf coefficients offsets
        ((global_slave_indices slaves cell_slaves).getD o 0))) ≠ [])
    (st : (Nat → ℚ) × (Nat → ℚ) × List Ins) :
    ((os.foldl (oStepD local_pos slaves mastersLocal coefficients offsets cell_slaves gi
      s0 slave_index master) st).1) (locOfD local_pos slaves cell_slaves gi o) = 0 ∧
    ((os.foldl (oStepD local_pos slaves mastersLocal coefficients offsets cell_slaves gi
      s0 slave_index master) st).2.1) (locOfD local_pos slaves cell_slaves gi o) = 0 := by
  obtain ⟨l1, l2, rfl⟩ := List.append_of_mem ho
  rw [List.foldl_append, List.foldl_cons]
  constructor
  · apply oFold_fst_pres_zero
    rw [oStepD_fst]
    rw [if_pos ⟨hskip, hzs, rfl⟩]
  · apply oFold_snd_pres_zero
    rw [oStepD_snd]
    rw [if_pos ⟨hskip, hzs, rfl⟩]

lemma oFold_fst_pres (os : List Nat) :
    ∀ (st : (Nat → ℚ) × (Nat → ℚ) × List Ins) (p : Nat),
      (∀ o ∈ os, (global_slave_indices slaves cell_slaves).getD o 0 ≠ slave_index →
        locOfD local_pos slaves cell_slaves gi o ≠ p) →
      ((os.foldl (oStepD local_pos slaves mastersLocal coefficients offsets cell_slaves gi
        s0 slave_index master) st).1) p = st.1 p := by
  induction os with
  | nil => intro st p _; rfl
  | cons o os ih =>
    intro st p h
    rw [List.foldl_cons, ih _ p (fun o' ho' => h o' (List.mem_cons_of_mem o ho')),
      oStepD_fst]
    rw [if_neg (fun hc => h o (List.mem_cons_self o os) hc.1 hc.2.2.symm)]

lemma oFold_snd_pres (os : List Nat) :
    ∀ (st : (Nat → ℚ) × (Nat → ℚ) × List Ins) (p : Nat),
      (∀ o ∈ os, (global_slave_indices slaves cell_slaves).getD o 0 ≠ slave_index →
        locOfD local_pos slaves cell_slaves gi o ≠ p) →
      ((os.foldl (oStepD local_pos slaves mastersLocal coefficients offsets cell_slaves gi
        s0 slave_index master) st).2.1) p = st.2.1 p := by
  induction os with
  | nil => intro st p _; rfl
  | cons o os ih =>
    intro st p h
    rw [List.foldl_cons, ih _ p (fun o' ho' => h o' (List.mem_cons_of_mem o ho')),
      oStepD_snd]
    rw [if_neg (fun hc => h o (List.mem_cons_self o os) hc.1 hc.2.2.symm)]

/-- The other-slave loop only appends emissions. -/
lemma oFold_emit_mono (os : List Nat) :
    ∀ (st : (Nat → ℚ) × (Nat → ℚ) × List Ins),
      ∃ E, ((os.foldl (oStepD local_pos slaves mastersLocal coefficients offsets
        cell_slaves gi s0 slave_index master) st).2.2) = st.2.2 ++ E := by
  induction os with
  | nil => intro st; exact ⟨[], by simp⟩
  | cons o os ih =>
    intro st
    rw [List.foldl_cons]
    obtain ⟨E, hE⟩ := ih (oStepD local_pos slaves mastersLocal coefficients offsets
      cell_slaves gi s0 slave_index master st o)
    rw [hE, oStepD_emit, List.append_assoc]
    exact ⟨_, rfl⟩

/-- The emissions of the other-slave loop contain, for each non-skipped other
slave `o`, a contiguous block produced by `crossEmitsD` from the row/column
values current when `o` is reached. -/
lemma oFold_block (l1 l2 : List Nat) (o : Nat)
    (hskip : (global_slave_indices slaves cell_slaves).getD o 0 ≠ slave_index)
    (st : (Nat → ℚ) × (Nat → ℚ) × List Ins) :
    ∃ post,
      (((l1 ++ o :: l2).foldl (oStepD local_pos slaves mastersLocal coefficients offsets
        cell_slaves gi s0 slave_index master) st).2.2) =
      ((l1.foldl (oStepD local_pos slaves mastersLocal coefficients offsets
        cell_slaves gi s0 slave_index master) st).2.2) ++
      crossEmitsD s0 o master
        ((l1.foldl (oStepD local_pos slaves mastersLocal coefficients offsets
          cell_slaves gi s0 slave_index master) st).1
            (locOfD local_pos slaves cell_slaves gi o))
        ((l1.foldl (oStepD local_pos slaves mastersLocal coefficients offsets
          cell_slaves gi s0 slave_index master) st).2.1
            (locOfD local_pos slaves cell_slaves gi o))
        ((cellMastersOf mastersLocal offsets
            ((global_slave_indices slaves cell_slaves).getD o 0)).zip
          (cellCoeffsOf coefficients offsets
            ((global_slave_indices slaves cell_slaves).getD o 0))) ++ post := by
  rw [List.foldl_append, List.foldl_cons]
  obtain ⟨E, hE⟩ := oFold_emit_mono local_pos slaves mastersLocal coefficients offsets
    cell_slaves gi s0 slave_index master l2
    (oStepD local_pos slaves mastersLocal coefficients offsets cell_slaves gi
      s0 slave_index master
      (l1.foldl (oStepD local_pos slaves mastersLocal coefficients offsets cell_slaves gi
        s0 slave_index master) st) o)
  rw [hE, oStepD_emit, if_neg hskip]
  exact ⟨E, rfl⟩

end OFold

/-! ## Lemmas: symmetry of the transform -/

lemma symAccum_parts5 {L1 L2 L3 L4 L5 : List Ins}
    (h1 : symAccum L1) (h23 : symAccum (L2 ++ L3)) (h4 : symAccum L4)
    (h5 : symAccum L5) : symAccum (L1 ++ L2 ++ L3 ++ L4 ++ L5) := by
  intro i j
  have h23ij := h23 i j
  rw [accum_append] at h23ij
  rw [accum_append] at h23ij
  simp only [accum_append]
  rw [h1 i j, h4 i j, h5 i j]
  linarith

lemma crossFold_sym (s0 o master oLoc : Nat) :
    ∀ (zs : List (Nat × ℚ)) (st : (Nat → ℚ) × (Nat → ℚ) × List Ins),
      (∀ k, st.1 k = st.2.1 k) → symAccum st.2.2 →
      (∀ k, ((zs.foldl (fun s q => crossMasterStep s0 o master oLoc q.1 q.2 s) st).1) k =
        ((zs.foldl (fun s q => crossMasterStep s0 o master oLoc q.1 q.2 s) st).2.1) k) ∧
      symAccum ((zs.foldl (fun s q => crossMasterStep s0 o master oLoc q.1 q.2 s) st).2.2) := by
  intro zs
  induction zs with
  | nil => intro st h hs; exact ⟨h, hs⟩
  | cons z zs ih =>
    intro st h hs
    rw [List.foldl_cons]
    apply ih
    · intro k
      simp only [crossMasterStep, upd]
      by_cases hk : k = oLoc <;> simp [hk, h k]
    · simp only [crossMasterStep]
      apply symAccum_append hs
      by_cases hg : s0 < o
      · rw [if_pos hg, h oLoc]
        exact symAccum_pair master z.1 (z.2 * st.2.1 oLoc)
      · rw [if_neg hg]; exact symAccum_nil

lemma oFold_sym (local_pos slaves mastersLocal : List Nat) (coefficients : List ℚ)
    (offsets cell_slaves : List Nat) (gi : Nat → Nat)
    (s0 slave_index master : Nat) (os : List Nat) :
    ∀ (st : (Nat → ℚ) × (Nat → ℚ) × List Ins),
      (∀ k, st.1 k = st.2.1 k) → symAccum st.2.2 →
      (∀ k, ((os.foldl (oStepD local_pos slaves mastersLocal coefficients offsets
          cell_slaves gi s0 slave_index master) st).1) k =
        ((os.foldl (oStepD local_pos slaves mastersLocal coefficients offsets
          cell_slaves gi s0 slave_index master) st).2.1) k) ∧
      symAccum ((os.foldl (oStepD local_pos slaves mastersLocal coefficients offsets
          cell_slaves gi s0 slave_index master) st).2.2) := by
  induction os with
  | nil => intro st h hs; exact ⟨h, hs⟩
  | cons o os ih =>
    intro st h hs
    rw [List.foldl_cons]
    apply ih
    · unfold oStepD
      by_cases hskip : (global_slave_indices slaves cell_slaves).getD o 0 = slave_index
      · rw [if_pos hskip]; exact h
      · rw [if_neg hskip]
        exact (crossFold_sym s0 o master (locOfD local_pos slaves cell_slaves gi o)
          _ st h hs).1
    · unfold oStepD
      by_cases hskip : (global_slave_indices slaves cell_slaves).getD o 0 = slave_index
      · rw [if_pos hskip]; exact hs
      · rw [if_neg hskip]
        exact (crossFold_sym s0 o master (locOfD local_pos slaves cell_slaves gi o)
          _ st h hs).2

lemma oResultD_sym (A : Nat → Nat → ℚ)
    (local_pos slaves mastersLocal : List Nat) (coefficients : List ℚ)
    (offsets cell_slaves : List Nat) (gi : Nat → Nat)
    (s0 slave_index slave_local master : Nat) (coeff : ℚ)
    (hA : ∀ i j, A i j = A j i) :
    (∀ k, (oResultD A local_pos slaves mastersLocal coefficients offsets cell_slaves gi
        s0 slave_index slave_local master coeff).1 k =
      (oResultD A local_pos slaves mastersLocal coefficients offsets cell_slaves gi
        s0 slave_index slave_local master coeff).2.1 k) ∧
    symAccum (oResultD A local_pos slaves mastersLocal coefficients offsets cell_slaves gi
        s0 slave_index slave_local master coeff).2.2 := by
  unfold oResultD
  apply oFold_sym
  · intro k
    simp only [upd]
    by_cases hk : k = slave_local <;> simp [hk, hA k slave_local]
  · exact symAccum_nil

lemma masterBlockD_sym (A : Nat → Nat → ℚ) (n : Nat)
    (local_pos slaves mastersLocal : List Nat) (coefficients : List ℚ)
    (offsets cell_slaves : List Nat) (gi : Nat → Nat)
    (s0 slave_index slave_local : Nat) (cm : List Nat) (cc : List ℚ)
    (dmc : Nat × Nat × ℚ) (hA : ∀ i j, A i j = A j i) :
    symAccum (masterBlockD A n local_pos slaves mastersLocal coefficients offsets
      cell_slaves gi s0 slave_index slave_local cm cc dmc) := by
  obtain ⟨hrc, hcross⟩ := oResultD_sym A local_pos slaves mastersLocal coefficients
    offsets cell_slaves gi s0 slave_index slave_local dmc.2.1 dmc.2.2 hA
  unfold masterBlockD
  apply symAccum_parts5 hcross _ _ _
  · -- row block followed by column block
    have hcol : colOfD A n local_pos slaves mastersLocal coefficients offsets
        cell_slaves gi s0 slave_index slave_local dmc.2.1 dmc.2.2 =
        (rowOfD A n local_pos slaves mastersLocal coefficients offsets
          cell_slaves gi s0 slave_index slave_local dmc.2.1 dmc.2.2).map swapT := by
      unfold rowOfD colOfD
      rw [List.map_map]
      apply List.map_congr_left
      intro k _
      simp [swapT, hrc k]
    rw [hcol]
    exact symAccum_append_map_swapT _
  · exact symAccum_singleton_diag _ _
  · unfold sameOfD
    apply symAccum_flatMap
    intro p _
    exact symAccum_pair _ _ _

lemma zeroRowCol_sym (M : Nat → Nat → ℚ) (p : Nat) (hM : ∀ i j, M i j = M j i) :
    ∀ i j, zeroRowCol M p i j = zeroRowCol M p j i := by
  intro i j
  unfold zeroRowCol
  by_cases hi : i = p <;> by_cases hj : j = p <;> simp [hi, hj, hM i j]

lemma finalAD_sym (A : Nat → Nat → ℚ)
    (local_pos slaves mastersLocal : List Nat) (coefficients : List ℚ)
    (offsets cell_slaves : List Nat) (gi : Nat → Nat)
    (hA : ∀ i j, A i j = A j i) :
    ∀ i j, finalAD A local_pos slaves mastersLocal coefficients offsets cell_slaves gi i j =
      finalAD A local_pos slaves mastersLocal coefficients offsets cell_slaves gi j i := by
  unfold finalAD
  generalize List.range (global_slave_indices slaves cell_slaves).length = os
  induction os generalizing A with
  | nil => exact hA
  | cons o os ih =>
    rw [List.foldl_cons]
    apply ih
    unfold zFoldD
    generalize (((cellMastersOf mastersLocal offsets
        ((global_slave_indices slaves cell_slaves).getD o 0)).zip
      (cellCoeffsOf coefficients offsets
        ((global_slave_indices slaves cell_slaves).getD o 0))).enum) = zs
    induction zs generalizing A with
    | nil => exact hA
    | cons z zs ihz =>
      rw [List.foldl_cons]
      apply ihz
      exact zeroRowCol_sym A _ hA

lemma listSum_range (n : Nat) (f : Nat → ℚ) :
    ((List.range n).map f).sum = Finset.sum (Finset.range n) f := by
  induction n with
  | zero => simp
  | succ k ih =>
    rw [List.range_succ, List.map_append, List.sum_append, Finset.sum_range_succ, ih]
    simp

lemma accum_localIns (S : Nat → Nat → ℚ) (lp : List Nat) (n : Nat) (p q : Nat) :
    accum (localIns S lp n) p q =
      Finset.sum (Finset.range n) (fun i =>
        Finset.sum (Finset.range n) (fun j =>
          if lp.getD i 0 = p ∧ lp.getD j 0 = q then S i j else 0)) := by
  unfold localIns
  rw [accum_flatMap, listSum_range]
  apply Finset.sum_congr rfl
  intro i _
  rw [← listSum_range]
  unfold accum
  rw [List.map_map]
  rfl

lemma localIns_sym (S : Nat → Nat → ℚ) (lp : List Nat) (n : Nat)
    (hS : ∀ i j, S i j = S j i) : symAccum (localIns S lp n) := by
  intro p q
  rw [accum_localIns, accum_localIns, Finset.sum_comm]
  apply Finset.sum_congr rfl
  intro i _
  apply Finset.sum_congr rfl
  intro j _
  rw [hS j i, ite_and_swap]

lemma allInsD_sym (A : Nat → Nat → ℚ) (n : Nat)
    (local_pos slaves mastersLocal : List Nat) (coefficients : List ℚ)
    (offsets cell_slaves : List Nat) (gi : Nat → Nat)
    (hA : ∀ i j, A i j = A j i) :
    symAccum (allInsD A n local_pos slaves mastersLocal coefficients offsets
      cell_slaves gi) := by
  unfold allInsD
  apply symAccum_flatMap
  intro s0 _
  unfold slaveBlockD
  apply symAccum_flatMap
  intro dmc _
  exact masterBlockD_sym A n local_pos slaves mastersLocal coefficients offsets
    cell_slaves gi s0 _ _ _ _ dmc hA

/-! ## Lemmas: Dirichlet-zeroed rows and columns contribute nothing -/

lemma bcZero_col (A : Nat → Nat → ℚ) (bcs local_pos : List Nat) (j : Nat)
    (hj : j < local_pos.length) (hbc : in_numpy_array bcs (local_pos.getD j 0) = true)
    (i : Nat) : bcZero A bcs local_pos i j = 0 := by
  unfold bcZero
  rw [if_pos (Or.inr ⟨hj, hbc⟩)]

lemma bcZero_row (A : Nat → Nat → ℚ) (bcs local_pos : List Nat) (i : Nat)
    (hi : i < local_pos.length) (hbc : in_numpy_array bcs (local_pos.getD i 0) = true)
    (j : Nat) : bcZero A bcs local_pos i j = 0 := by
  unfold bcZero
  rw [if_pos (Or.inl ⟨hi, hbc⟩)]

lemma oFold_all_zero (local_pos slaves mastersLocal : List Nat) (coefficients : List ℚ)
    (offsets cell_slaves : List Nat) (gi : Nat → Nat)
    (s0 slave_index master : Nat) (os : List Nat) :
    ∀ (st : (Nat → ℚ) × (Nat → ℚ) × List Ins),
      (∀ k, st.1 k = 0) → (∀ k, st.2.1 k = 0) → (∀ t ∈ st.2.2, t.2.2 = 0) →
      (∀ k, ((os.foldl (oStepD local_pos slaves mastersLocal coefficients offsets
          cell_slaves gi s0 slave_index master) st).1) k = 0) ∧
      (∀ k, ((os.foldl (oStepD local_pos slaves mastersLocal coefficients offsets
          cell_slaves gi s0 slave_index master) st).2.1) k = 0) ∧
      (∀ t ∈ ((os.foldl (oStepD local_pos slaves mastersLocal coefficients offsets
          cell_slaves gi s0 slave_index master) st).2.2), t.2.2 = 0) := by
  induction os with
  | nil => intro st h1 h2 h3; exact ⟨h1, h2, h3⟩
  | cons o os ih =>
    intro st h1 h2 h3
    rw [List.foldl_cons]
    apply ih
    · intro k
      rw [oStepD_fst]
      by_cases hc : (global_slave_indices slaves cell_slaves).getD o 0 ≠ slave_index ∧
          ((cellMastersOf mastersLocal offsets
              ((global_slave_indices slaves cell_slaves).getD o 0)).zip
            (cellCoeffsOf coefficients offsets
              ((global_slave_indices slaves cell_slaves).getD o 0))) ≠ [] ∧
          k = locOfD local_pos slaves cell_slaves gi o
      · rw [if_pos hc]
      · rw [if_neg hc]; exact h1 k
    · intro k
      rw [oStepD_snd]
      by_cases hc : (global_slave_indices slaves cell_slaves).getD o 0 ≠ slave_index ∧
          ((cellMastersOf mastersLocal offsets
              ((global_slave_indices slaves cell_slaves).getD o 0)).zip
            (cellCoeffsOf coefficients offsets
              ((global_slave_indices slaves cell_slaves).getD o 0))) ≠ [] ∧
          k = locOfD local_pos slaves cell_slaves gi o
      · rw [if_pos hc]
      · rw [if_neg hc]; exact h2 k
    · intro t ht
      rw [oStepD_emit] at ht
      rcases List.mem_append.mp ht with hl | hr
      · exact h3 t hl
      · by_cases hskip : (global_slave_indices slaves cell_slaves).getD o 0 = slave_index
        · rw [if_pos hskip] at hr; cases hr
        · rw [if_neg hskip] at hr
          exact crossEmitsD_len_vals_zero s0 o master _ _
            (h1 (locOfD local_pos slaves cell_slaves gi o))
            (h2 (locOfD local_pos slaves cell_slaves gi o)) _ t hr

/-- If the pre-zeroing copy has zero slave row and column, every emission of a
`(slave, master)` iteration has value zero. -/
lemma masterBlockD_vals_zero (A : Nat → Nat → ℚ) (n : Nat)
    (local_pos slaves mastersLocal : List Nat) (coefficients : List ℚ)
    (offsets cell_slaves : List Nat) (gi : Nat → Nat)
    (s0 slave_index slave_local : Nat) (cm : List Nat) (cc : List ℚ)
    (dmc : Nat × Nat × ℚ)
    (hcol : ∀ k, A k slave_local = 0) (hrow : ∀ k, A slave_local k = 0) :
    ∀ t ∈ masterBlockD A n local_pos slaves mastersLocal coefficients offsets
      cell_slaves gi s0 slave_index slave_local cm cc dmc, t.2.2 = 0 := by
  have hz := oFold_all_zero local_pos slaves mastersLocal coefficients offsets
    cell_slaves gi s0 slave_index dmc.2.1
    (List.range (global_slave_indices slaves cell_slaves).length)
    (upd (fun k => dmc.2.2 * A k slave_local) slave_local 0,
     upd (fun k => dmc.2.2 * A slave_local k) slave_local 0, ([] : List Ins))
    (by
      intro k
      simp only [upd]
      by_cases hk : k = slave_local <;> simp [hk, hcol k])
    (by
      intro k
      simp only [upd]
      by_cases hk : k = slave_local <;> simp [hk, hrow k])
    (by intro t ht; cases ht)
  intro t ht
  unfold masterBlockD at ht
  rcases List.mem_append.mp ht with h1 | hsame
  rcases List.mem_append.mp h1 with h2 | hdiag
  rcases List.mem_append.mp h2 with h3 | hcolB
  rcases List.mem_append.mp h3 with hcross | hrowB
  · exact hz.2.2 t hcross
  · unfold rowOfD at hrowB
    obtain ⟨k, _, rfl⟩ := List.mem_map.mp hrowB
    exact hz.1 k
  · unfold colOfD at hcolB
    obtain ⟨k, _, rfl⟩ := List.mem_map.mp hcolB
    exact hz.2.1 k
  · rcases List.mem_singleton.mp hdiag with rfl
    simp [hrow slave_local]
  · unfold sameOfD at hsame
    obtain ⟨p, _, hp⟩ := List.mem_flatMap.mp hsame
    rcases List.mem_cons.mp hp with rfl | hp2
    · simp [hrow slave_local]
    · rcases List.mem_singleton.mp hp2 with rfl
      simp [hrow slave_local]

/-- A Dirichlet-zeroed local row keeps the extracted row value at its position
zero through the whole other-slave loop. -/
lemma oResultD_fst_zero (A : Nat → Nat → ℚ)
    (local_pos slaves mastersLocal : List Nat) (coefficients : List ℚ)
    (offsets cell_slaves : List Nat) (gi : Nat → Nat)
    (s0 slave_index slave_local master : Nat) (coeff : ℚ) (k : Nat)
    (hk : A k slave_local = 0) :
    (oResultD A local_pos slaves mastersLocal coefficients offsets cell_slaves gi
      s0 slave_index slave_local master coeff).1 k = 0 := by
  unfold oResultD
  apply oFold_fst_pres_zero
  simp only [upd]
  by_cases h : k = slave_local <;> simp [h, hk]

lemma oResultD_snd_zero (A : Nat → Nat → ℚ)
    (local_pos slaves mastersLocal : List Nat) (coefficients : List ℚ)
    (offsets cell_slaves : List Nat) (gi : Nat → Nat)
    (s0 slave_index slave_local master : Nat) (coeff : ℚ) (k : Nat)
    (hk : A slave_local k = 0) :
    (oResultD A local_pos slaves mastersLocal coefficients offsets cell_slaves gi
      s0 slave_index slave_local master coeff).2.1 k = 0 := by
  unfold oResultD
  apply oFold_snd_pres_zero
  simp only [upd]
  by_cases h : k = slave_local <;> simp [h, hk]

/-! ## Lemmas: the vector transform -/

@[simp] lemma accumV_nil (p : Nat) : accumV [] p = 0 := rfl

lemma accumV_append (L M : List (Nat × ℚ)) (p : Nat) :
    accumV (L ++ M) p = accumV L p + accumV M p := by
  simp [accumV]

lemma accumV_single (a : Nat) (v : ℚ) (p : Nat) :
    accumV [(a, v)] p = if a = p then v else 0 := by
  simp [accumV]

lemma accumV_flatMap {α : Type} (l : List α) (f : α → List (Nat × ℚ)) (p : Nat) :
    accumV (l.flatMap f) p = (l.map (fun x => accumV (f x) p)).sum := by
  induction l with
  | nil => simp
  | cons a l ih => simp [List.flatMap_cons, accumV_append, ih]

lemma accumV_cons (t : Nat × ℚ) (L : List (Nat × ℚ)) (p : Nat) :
    accumV (t :: L) p = (if t.1 = p then t.2 else 0) + accumV L p := by
  simp [accumV]

lemma accumV_eq_zero_of_not_mem (L : List (Nat × ℚ)) (p : Nat)
    (h : ∀ t ∈ L, t.1 ≠ p) : accumV L p = 0 := by
  induction L with
  | nil => rfl
  | cons t L ih =>
    rw [accumV_cons, if_neg (h t (List.mem_cons_self t L)),
      ih (fun s hs => h s (List.mem_cons_of_mem t hs))]
    simp

section VecChar

variable (glob slaves : List Nat) (gi : Nat → Nat) (b_copy : Nat → ℚ)

lemma kFold_fst (si mi : Nat) (c0 : ℚ) :
    ∀ (ks : List Nat) (st : (Nat → ℚ) × (Nat → ℚ)) (p : Nat),
      ((ks.foldl (fun st k =>
        if gi (glob.getD k 0) = slaves.getD si 0 then
          (upd st.1 mi (st.1 mi + c0 * b_copy k), upd st.2 k 0)
        else st) st).1) p =
      st.1 p + accumV (ks.flatMap (fun k =>
        if gi (glob.getD k 0) = slaves.getD si 0 then [(mi, c0 * b_copy k)] else [])) p := by
  intro ks
  induction ks with
  | nil => intro st p; simp
  | cons k ks ih =>
    intro st p
    rw [List.foldl_cons, List.flatMap_cons]
    by_cases hm : gi (glob.getD k 0) = slaves.getD si 0
    · rw [if_pos hm, if_pos hm, ih, accumV_append, accumV_single]
      simp only [upd]
      by_cases hp : p = mi
      · rw [if_pos hp, if_pos (by rw [hp]), hp]; ring
      · rw [if_neg hp, if_neg (fun h => hp h.symm)]; ring
    · rw [if_neg hm, if_neg hm, ih]
      simp

lemma kFold_snd (si mi : Nat) (c0 : ℚ) :
    ∀ (ks : List Nat) (st : (Nat → ℚ) × (Nat → ℚ)) (j : Nat),
      ((ks.foldl (fun st k =>
        if gi (glob.getD k 0) = slaves.getD si 0 then
          (upd st.1 mi (st.1 mi + c0 * b_copy k), upd st.2 k 0)
        else st) st).2) j =
      if j ∈ ks ∧ gi (glob.getD j 0) = slaves.getD si 0 then 0 else st.2 j := by
  intro ks
  induction ks with
  | nil => intro st j; simp
  | cons k ks ih =>
    intro st j
    rw [List.foldl_cons, ih]
    by_cases hin : j ∈ ks ∧ gi (glob.getD j 0) = slaves.getD si 0
    · rw [if_pos hin, if_pos ⟨List.mem_cons_of_mem k hin.1, hin.2⟩]
    · rw [if_neg hin]
      by_cases hjk : j = k
      · subst hjk
        by_cases hm : gi (glob.getD j 0) = slaves.getD si 0
        · rw [if_pos hm, if_pos ⟨List.mem_cons_self j ks, hm⟩]
          simp [upd]
        · rw [if_neg hm, if_neg (fun h => hm h.2)]
      · by_cases hm : gi (glob.getD k 0) = slaves.getD si 0
        · rw [if_pos hm, if_neg (fun h => hin ⟨(List.mem_cons.mp h.1).resolve_left hjk, h.2⟩)]
          simp [upd, hjk]
        · rw [if_neg hm, if_neg (fun h => hin ⟨(List.mem_cons.mp h.1).resolve_left hjk, h.2⟩)]

lemma mFold_fst (si : Nat) (cm : List Nat) (cc : List ℚ) :
    ∀ (ms : List Nat) (st : (Nat → ℚ) × (Nat → ℚ)) (p : Nat),
      ((ms.foldl (fun st m0 =>
        (List.range glob.length).foldl (fun st k =>
          if gi (glob.getD k 0) = slaves.getD si 0 then
            (upd st.1 (cm.getD m0 0) (st.1 (cm.getD m0 0) + cc.getD m0 0 * b_copy k),
             upd st.2 k 0)
          else st) st) st).1) p =
      st.1 p + accumV (ms.flatMap (fun m0 =>
        (List.range glob.length).flatMap (fun k =>
          if gi (glob.getD k 0) = slaves.getD si 0 then
            [(cm.getD m0 0, cc.getD m0 0 * b_copy k)] else []))) p := by
  intro ms
  induction ms with
  | nil => intro st p; simp
  | cons m0 ms ih =>
    intro st p
    rw [List.foldl_cons, List.flatMap_cons, ih, accumV_append,
      kFold_fst glob slaves gi b_copy si (cm.getD m0 0) (cc.getD m0 0)]
    ring

lemma mFold_snd (si : Nat) (cm : List Nat) (cc : List ℚ) :
    ∀ (ms : List Nat) (st : (Nat → ℚ) × (Nat → ℚ)) (j : Nat),
      ((ms.foldl (fun st m0 =>
        (List.range glob.length).foldl (fun st k =>
          if gi (glob.getD k 0) = slaves.getD si 0 then
            (upd st.1 (cm.getD m0 0) (st.1 (cm.getD m0 0) + cc.getD m0 0 * b_copy k),
             upd st.2 k 0)
          else st) st) st).2) j =
      if ms ≠ [] ∧ j < glob.length ∧ gi (glob.getD j 0) = slaves.getD si 0 then 0
      else st.2 j := by
  intro ms
  induction ms with
  | nil => intro st j; simp
  | cons m0 ms ih =>
    intro st j
    rw [List.foldl_cons, ih,
      kFold_snd glob slaves gi b_copy si (cm.getD m0 0) (cc.getD m0 0)]
    by_cases hc : j < glob.length ∧ gi (glob.getD j 0) = slaves.getD si 0
    · rw [if_pos (show m0 :: ms ≠ [] ∧ j < glob.length ∧
          gi (glob.getD j 0) = slaves.getD si 0 from
          ⟨List.cons_ne_nil m0 ms, hc.1, hc.2⟩)]
      by_cases hms : ms = []
      · rw [if_neg (show ¬ (ms ≠ [] ∧ j < glob.length ∧
            gi (glob.getD j 0) = slaves.getD si 0) from fun h => h.1 hms),
          if_pos ⟨List.mem_range.mpr hc.1, hc.2⟩]
      · rw [if_pos (show ms ≠ [] ∧ j < glob.length ∧
            gi (glob.getD j 0) = slaves.getD si 0 from ⟨hms, hc.1, hc.2⟩)]
    · rw [if_neg (show ¬ (ms ≠ [] ∧ j < glob.length ∧
          gi (glob.getD j 0) = slaves.getD si 0) from fun h => hc ⟨h.2.1, h.2.2⟩),
        if_neg (show ¬ (m0 :: ms ≠ [] ∧ j < glob.length ∧
          gi (glob.getD j 0) = slaves.getD si 0) from fun h => hc ⟨h.2.1, h.2.2⟩),
        if_neg (show ¬ (j ∈ List.range glob.length ∧
          gi (glob.getD j 0) = slaves.getD si 0) from
          fun h => hc ⟨List.mem_range.mp h.1, h.2⟩)]

lemma sFold_fst (mastersLocal : List Nat) (coefficients : List ℚ)
    (offsets cell_slaves : List Nat) :
    ∀ (ss : List Nat) (st : (Nat → ℚ) × (Nat → ℚ)) (p : Nat),
      ((ss.foldl (fun st s0 =>
        (List.range (cellMastersOf mastersLocal offsets
            ((global_slave_indices slaves cell_slaves).getD s0 0)).length).foldl
          (fun st m0 =>
            (List.range glob.length).foldl (fun st k =>
              if gi (glob.getD k 0) =
                  slaves.getD ((global_slave_indices slaves cell_slaves).getD s0 0) 0 then
                (upd st.1 ((cellMastersOf mastersLocal offsets
                    ((global_slave_indices slaves cell_slaves).getD s0 0)).getD m0 0)
                  (st.1 ((cellMastersOf mastersLocal offsets
                      ((global_slave_indices slaves cell_slaves).getD s0 0)).getD m0 0) +
                    (cellCoeffsOf coefficients offsets
                      ((global_slave_indices slaves cell_slaves).getD s0 0)).getD m0 0 *
                      b_copy k),
                 upd st.2 k 0)
              else st) st) st) st).1) p =
      st.1 p + accumV (ss.flatMap (fun s0 =>
        (List.range (cellMastersOf mastersLocal offsets
            ((global_slave_indices slaves cell_slaves).getD s0 0)).length).flatMap
          (fun m0 =>
            (List.range glob.length).flatMap (fun k =>
              if gi (glob.getD k 0) =
                  slaves.getD ((global_slave_indices slaves cell_slaves).getD s0 0) 0 then
                [((cellMastersOf mastersLocal offsets
                    ((global_slave_indices slaves cell_slaves).getD s0 0)).getD m0 0,
                  (cellCoeffsOf coefficients offsets
                    ((global_slave_indices slaves cell_slaves).getD s0 0)).getD m0 0 *
                    b_copy k)]
              else [])))) p := by
  intro ss
  induction ss with
  | nil => intro st p; simp
  | cons s0 ss ih =>
    intro st p
    rw [List.foldl_cons, List.flatMap_cons, ih, accumV_append,
      mFold_fst glob slaves gi b_copy
        ((global_slave_indices slaves cell_slaves).getD s0 0)
        (cellMastersOf mastersLocal offsets
          ((global_slave_indices slaves cell_slaves).getD s0 0))
        (cellCoeffsOf coefficients offsets
          ((global_slave_indices slaves cell_slaves).getD s0 0))]
    ring

lemma sFold_snd_pres_zero (mastersLocal : List Nat) (coefficients : List ℚ)
    (offsets cell_slaves : List Nat) :
    ∀ (ss : List Nat) (st : (Nat → ℚ) × (Nat → ℚ)) (j : Nat), st.2 j = 0 →
      ((ss.foldl (fun st s0 =>
        (List.range (cellMastersOf mastersLocal offsets
            ((global_slave_indices slaves cell_slaves).getD s0 0)).length).foldl
          (fun st m0 =>
            (List.range glob.length).foldl (fun st k =>
              if gi (glob.getD k 0) =
                  slaves.getD ((global_slave_indices slaves cell_slaves).getD s0 0) 0 then
                (upd st.1 ((cellMastersOf mastersLocal offsets
                    ((global_slave_indices slaves cell_slaves).getD s0 0)).getD m0 0)
                  (st.1 ((cellMastersOf mastersLocal offsets
                      ((global_slave_indices slaves cell_slaves).getD s0 0)).getD m0 0) +
                    (cellCoeffsOf coefficients offsets
                      ((global_slave_indices slaves cell_slaves).getD s0 0)).getD m0 0 *
                      b_copy k),
                 upd st.2 k 0)
              else st) st) st) st).2) j = 0 := by
  intro ss
  induction ss with
  | nil => intro st j h; exact h
  | cons s0 ss ih =>
    intro st j h
    rw [List.foldl_cons]
    apply ih
    rw [mFold_snd glob slaves gi b_copy
        ((global_slave_indices slaves cell_slaves).getD s0 0)
        (cellMastersOf mastersLocal offsets
          ((global_slave_indices slaves cell_slaves).getD s0 0))
        (cellCoeffsOf coefficients offsets
          ((global_slave_indices slaves cell_slaves).getD s0 0))]
    by_cases hc : (List.range (cellMastersOf mastersLocal offsets
          ((global_slave_indices slaves cell_slaves).getD s0 0)).length) ≠ [] ∧
        j < glob.length ∧
        gi (glob.getD j 0) =
          slaves.getD ((global_slave_indices slaves cell_slaves).getD s0 0) 0
    · rw [if_pos hc]
    · rw [if_neg hc]; exact h

lemma sFold_snd_zero (mastersLocal : List Nat) (coefficients : List ℚ)
    (offsets cell_slaves : List Nat) (ss : List Nat)
    (st : (Nat → ℚ) × (Nat → ℚ)) (j : Nat) (s0 : Nat) (hs0 : s0 ∈ ss)
    (hj : j < glob.length)
    (hm : gi (glob.getD j 0) =
      slaves.getD ((global_slave_indices slaves cell_slaves).getD s0 0) 0)
    (hcm : cellMastersOf mastersLocal offsets
      ((global_slave_indices slaves cell_slaves).getD s0 0) ≠ []) :
    ((ss.foldl (fun st s0 =>
      (List.range (cellMastersOf mastersLocal offsets
          ((global_slave_indices slaves cell_slaves).getD s0 0)).length).foldl
        (fun st m0 =>
          (List.range glob.length).foldl (fun st k =>
            if gi (glob.getD k 0) =
                slaves.getD ((global_slave_indices slaves cell_slaves).getD s0 0) 0 then
              (upd st.1 ((cellMastersOf mastersLocal offsets
                  ((global_slave_indices slaves cell_slaves).getD s0 0)).getD m0 0)
                (st.1 ((cellMastersOf mastersLocal offsets
                    ((global_slave_indices slaves cell_slaves).getD s0 0)).getD m0 0) +
                  (cellCoeffsOf coefficients offsets
                    ((global_slave_indices slaves cell_slaves).getD s0 0)).getD m0 0 *
                    b_copy k),
               upd st.2 k 0)
            else st) st) st) st).2) j = 0 := by
  obtain ⟨l1, l2, rfl⟩ := List.append_of_mem hs0
  rw [List.foldl_append, List.foldl_cons]
  apply sFold_snd_pres_zero
  rw [mFold_snd glob slaves gi b_copy
      ((global_slave_indices slaves cell_slaves).getD s0 0)
      (cellMastersOf mastersLocal offsets
        ((global_slave_indices slaves cell_slaves).getD s0 0))
      (cellCoeffsOf coefficients offsets
        ((global_slave_indices slaves cell_slaves).getD s0 0))]
  have hne : (List.range (cellMastersOf mastersLocal offsets
      ((global_slave_indices slaves cell_slaves).getD s0 0)).length) ≠ [] := by
    intro hr
    exact hcm (List.length_eq_zero.mp (List.range_eq_nil.mp hr))
  rw [if_pos ⟨hne, hj, hm⟩]

lemma sFold_snd_pres (mastersLocal : List Nat) (coefficients : List ℚ)
    (offsets cell_slaves : List Nat) :
    ∀ (ss : List Nat) (st : (Nat → ℚ) × (Nat → ℚ)) (j : Nat),
      (∀ s0 ∈ ss, ¬ (j < glob.length ∧
        gi (glob.getD j 0) =
          slaves.getD ((global_slave_indices slaves cell_slaves).getD s0 0) 0 ∧
        cellMastersOf mastersLocal offsets
          ((global_slave_indices slaves cell_slaves).getD s0 0) ≠ [])) →
      ((ss.foldl (fun st s0 =>
        (List.range (cellMastersOf mastersLocal offsets
            ((global_slave_indices slaves cell_slaves).getD s0 0)).length).foldl
          (fun st m0 =>
            (List.range glob.length).foldl (fun st k =>
              if gi (glob.getD k 0) =
                  slaves.getD ((global_slave_indices slaves cell_slaves).getD s0 0) 0 then
                (upd st.1 ((cellMastersOf mastersLocal offsets
                    ((global_slave_indices slaves cell_slaves).getD s0 0)).getD m0 0)
                  (st.1 ((cellMastersOf mastersLocal offsets
                      ((global_slave_indices slaves cell_slaves).getD s0 0)).getD m0 0) +
                    (cellCoeffsOf coefficients offsets
                      ((global_slave_indices slaves cell_slaves).getD s0 0)).getD m0 0 *
                      b_copy k),
                 upd st.2 k 0)
              else st) st) st) st).2) j = st.2 j := by
  intro ss
  induction ss with
  | nil => intro st j _; rfl
  | cons s0 ss ih =>
    intro st j h
    rw [List.foldl_cons, ih _ j (fun s hs => h s (List.mem_cons_of_mem s0 hs))]
    rw [mFold_snd glob slaves gi b_copy
        ((global_slave_indices slaves cell_slaves).getD s0 0)
        (cellMastersOf mastersLocal offsets
          ((global_slave_indices slaves cell_slaves).getD s0 0))
        (cellCoeffsOf coefficients offsets
          ((global_slave_indices slaves cell_slaves).getD s0 0))]
    rw [if_neg]
    intro hc
    apply h s0 (List.mem_cons_self s0 ss)
    refine ⟨hc.2.1, hc.2.2, ?_⟩
    intro hcm
    apply hc.1
    rw [hcm]
    rfl

end VecChar

/-- The write-back loop adds, at each global position, the sum of the
differences of the local positions mapping there. -/
lemma writeback_apply (b b_local b_copy : Nat → ℚ) (glob : List Nat) (n : Nat) (p : Nat) :
    writeback b b_local b_copy glob n p =
      b p + ((List.range n).map (fun j =>
        if glob.getD j 0 = p then b_local j - b_copy j else 0)).sum := by
  unfold writeback
  generalize List.range n = js
  induction js generalizing b with
  | nil => simp
  | cons j js ih =>
    rw [List.foldl_cons, List.map_cons, List.sum_cons, ih]
    simp only [upd]
    by_cases hp : p = glob.getD j 0
    · rw [if_pos hp, if_pos (by rw [hp])]
      rw [hp]
      ring
    · rw [if_neg hp, if_neg (fun h => hp h.symm)]
      ring

/-- The vector transform adds exactly the master emissions to `b`. -/
lemma modify_vec_fst (b b_local b_copy : Nat → ℚ)
    (glob slaves mastersLocal : List Nat) (coefficients : List ℚ)
    (offsets cell_slaves : List Nat) (gi : Nat → Nat) (p : Nat) :
    (modify_mpc_contributions b b_local b_copy glob slaves mastersLocal coefficients
      offsets cell_slaves gi).1 p =
    b p + accumV (vecInsD b_copy glob slaves mastersLocal coefficients offsets
      cell_slaves gi) p := by
  exact sFold_fst glob slaves gi b_copy mastersLocal coefficients offsets cell_slaves
    (List.range (global_slave_indices slaves cell_slaves).length) (b, b_local) p

/-- The vector transform zeroes the local entry of every matched slave
position. -/
lemma modify_vec_snd_zero (b b_local b_copy : Nat → ℚ)
    (glob slaves mastersLocal : List Nat) (coefficients : List ℚ)
    (offsets cell_slaves : List Nat) (gi : Nat → Nat) (j : Nat)
    (hz : slaveZeroed glob slaves mastersLocal offsets cell_slaves gi j) :
    (modify_mpc_contributions b b_local b_copy glob slaves mastersLocal coefficients
      offsets cell_slaves gi).2 j = 0 := by
  obtain ⟨hj, s0, hs0, hm, hcm⟩ := hz
  exact sFold_snd_zero glob slaves gi b_copy mastersLocal coefficients offsets
    cell_slaves (List.range (global_slave_indices slaves cell_slaves).length)
    (b, b_local) j s0 hs0 hj hm hcm

/-- The vector transform leaves every other local entry unchanged. -/
lemma modify_vec_snd_pres (b b_local b_copy : Nat → ℚ)
    (glob slaves mastersLocal : List Nat) (coefficients : List ℚ)
    (offsets cell_slaves : List Nat) (gi : Nat → Nat) (j : Nat)
    (hz : ¬ slaveZeroed glob slaves mastersLocal offsets cell_slaves gi j) :
    (modify_mpc_contributions b b_local b_copy glob slaves mastersLocal coefficients
      offsets cell_slaves gi).2 j = b_local j := by
  apply sFold_snd_pres glob slaves gi b_copy mastersLocal coefficients offsets
    cell_slaves (List.range (global_slave_indices slaves cell_slaves).length)
    (b, b_local) j
  intro s0 hs0 hc
  exact hz ⟨hc.1, s0, hs0, hc.2.1, hc.2.2⟩

/-! ## Remaining helper lemmas -/

lemma findpos_none (slave : Nat) (gi : Nat → Nat) :
    ∀ (lp : List Nat), (∀ k, k < lp.length → gi (lp.getD k 0) ≠ slave) →
      slave_global_to_local_pos slave gi lp = none := by
  intro lp
  induction lp with
  | nil => intro _; rfl
  | cons p rest ih =>
    intro h
    unfold slave_global_to_local_pos
    rw [if_neg (show ¬ gi p = slave from h 0 (Nat.succ_pos _)),
      ih (fun k hk => h (k + 1) (Nat.succ_lt_succ hk))]

lemma applyOverwrite_diag (M : Nat → Nat → ℚ) (s : List Nat) (d : Nat) :
    applyOverwrite M (add_diagonal_inserts s) d d = if d ∈ s then 1 else M d d := by
  induction s generalizing M with
  | nil => simp [applyOverwrite, add_diagonal_inserts]
  | cons a s ih =>
    rw [show applyOverwrite M (add_diagonal_inserts (a :: s)) =
        applyOverwrite (fun i j => if i = a ∧ j = a then 1 else M i j)
          (add_diagonal_inserts s) from rfl, ih]
    by_cases hds : d ∈ s
    · rw [if_pos hds, if_pos (List.mem_cons_of_mem a hds)]
    · rw [if_neg hds]
      by_cases hda : d = a
      · rw [if_pos ⟨hda, hda⟩, if_pos (by rw [hda]; exact List.mem_cons_self a s)]
      · rw [if_neg (fun h => hda h.1),
          if_neg (fun h => ((List.mem_cons.mp h).elim hda hds))]

/-! ## The claims -/

/-- C6: a slave listed for a cell with no local dof whose global index matches
fails the resolution (`slave_global_to_local_pos` returns `none`, the numba
`assert(local_index != -1)` fires), and the cell transform aborts with `none`
instead of continuing with a partial result. -/
theorem claim_C6 (A : Nat → Nat → ℚ) (n : Nat)
    (local_pos slaves mastersLocal : List Nat) (coefficients : List ℚ)
    (offsets cell_slaves : List Nat) (gi : Nat → Nat) (s0 : Nat)
    (hs0 : s0 < (global_slave_indices slaves cell_slaves).length)
    (hnomatch : ∀ k, k < local_pos.length →
      gi (local_pos.getD k 0) ≠
        slaves.getD ((global_slave_indices slaves cell_slaves).getD s0 0) 0) :
    slave_global_to_local_pos
      (slaves.getD ((global_slave_indices slaves cell_slaves).getD s0 0) 0) gi local_pos
      = none ∧
    modify_mpc_cell A n local_pos slaves mastersLocal coefficients offsets cell_slaves gi
      = none := by
  have hres := findpos_none
    (slaves.getD ((global_slave_indices slaves cell_slaves).getD s0 0) 0) gi
    local_pos hnomatch
  refine ⟨hres, ?_⟩
  unfold modify_mpc_cell
  apply optFold_none_of_mem _ s0 ?_ _ (List.mem_range.mpr hs0)
  intro st
  unfold slaveStep
  dsimp only
  rw [hres]
  rfl

/-- C6 witness: a cell with one local dof of global index 10 and a listed
slave of global index 5 aborts. -/
theorem claim_C6_witness :
    slave_global_to_local_pos
      (List.getD [5] (List.getD (global_slave_indices [5] [5]) 0 0) 0)
      (fun x => x) [10] = none ∧
    modify_mpc_cell Awit 1 [10] [5] [] [] [0, 0] [5] (fun x => x) = none := by
  exact claim_C6 Awit 1 [10] [5] [] [] [0, 0] [5] (fun x => x) 0 (by decide)
    (by
      intro k hk
      have hk0 : k = 0 := Nat.lt_one_iff.mp hk
      subst hk0
      decide)

/-- C1: on a successful run the emissions of `modify_mpc_cell` decompose per
slave and per master, and the master-diagonal insertion of the `(s0, d)`
iteration is exactly `(m, m, c * (c * A ℓ ℓ))`, whose value is read from the
matrix `A` passed in — the copy taken before any zeroing — so later master
contributions use the original slave row/column values; the insertion is
additive, so coincident targets accumulate. -/
theorem claim_C1 (A : Nat → Nat → ℚ) (n : Nat)
    (local_pos slaves mastersLocal : List Nat) (coefficients : List ℚ)
    (offsets cell_slaves : List Nat) (gi : Nat → Nat)
    (L : List Ins) (s0 slave_index ℓ d m : Nat) (c : ℚ)
    (hL : Option.map Prod.snd (modify_mpc_cell A n local_pos slaves mastersLocal
      coefficients offsets cell_slaves gi) = some L)
    (hs0 : s0 < (global_slave_indices slaves cell_slaves).length)
    (hsi : slave_index = (global_slave_indices slaves cell_slaves).getD s0 0)
    (hloc : slave_global_to_local_pos (slaves.getD slave_index 0) gi local_pos = some ℓ)
    (hd : ((cellMastersOf mastersLocal offsets slave_index).zip
      (cellCoeffsOf coefficients offsets slave_index)).enum[d]? = some (d, m, c)) :
    L = allInsD A n local_pos slaves mastersLocal coefficients offsets cell_slaves gi ∧
    slaveBlockD A n local_pos slaves mastersLocal coefficients offsets cell_slaves gi s0 =
      (((cellMastersOf mastersLocal offsets slave_index).zip
        (cellCoeffsOf coefficients offsets slave_index)).enum).flatMap
        (masterBlockD A n local_pos slaves mastersLocal coefficients offsets cell_slaves
          gi s0 slave_index ℓ (cellMastersOf mastersLocal offsets slave_index)
          (cellCoeffsOf coefficients offsets slave_index)) ∧
    masterBlockD A n local_pos slaves mastersLocal coefficients offsets cell_slaves gi
      s0 slave_index ℓ (cellMastersOf mastersLocal offsets slave_index)
      (cellCoeffsOf coefficients offsets slave_index) (d, m, c) =
      (oResultD A local_pos slaves mastersLocal coefficients offsets cell_slaves gi
        s0 slave_index ℓ m c).2.2 ++
      rowOfD A n local_pos slaves mastersLocal coefficients offsets cell_slaves gi
        s0 slave_index ℓ m c ++
      colOfD A n local_pos slaves mastersLocal coefficients offsets cell_slaves gi
        s0 slave_index ℓ m c ++
      [(m, m, c * (c * A ℓ ℓ))] ++
      sameOfD A ℓ (cellMastersOf mastersLocal offsets slave_index)
        (cellCoeffsOf coefficients offsets slave_index) d m c := by
  have hlocD : locOfD local_pos slaves cell_slaves gi s0 = ℓ := by
    unfold locOfD
    rw [← hsi, hloc]
    rfl
  refine ⟨?_, ?_, rfl⟩
  · cases hmod : modify_mpc_cell A n local_pos slaves mastersLocal coefficients offsets
        cell_slaves gi with
    | none => rw [hmod] at hL; cases hL
    | some p =>
      rw [hmod] at hL
      have hp := modify_eq_of_some A n local_pos slaves mastersLocal coefficients offsets
        cell_slaves gi p hmod
      have : p.2 = L := Option.some_inj.mp hL
      rw [← this, hp]
  · unfold slaveBlockD
    rw [hlocD, ← hsi]

/-- C1 witness: in a 2-dof cell with slaves 10 and 11, the second slave's
first master 6 with coefficient 3 receives the diagonal insertion
`3 * (3 * A 1 1)`. -/
theorem claim_C1_witness :
    insOf (modify_mpc_cell Awit 2 [10, 11] [10, 11] [5, 6, 7] [2, 3, 5] [0, 1, 3]
        [10, 11] (fun x => x)) =
      allInsD Awit 2 [10, 11] [10, 11] [5, 6, 7] [2, 3, 5] [0, 1, 3] [10, 11]
        (fun x => x) ∧
    slaveBlockD Awit 2 [10, 11] [10, 11] [5, 6, 7] [2, 3, 5] [0, 1, 3] [10, 11]
        (fun x => x) 1 =
      (((cellMastersOf [5, 6, 7] [0, 1, 3] 1).zip
        (cellCoeffsOf [2, 3, 5] [0, 1, 3] 1)).enum).flatMap
        (masterBlockD Awit 2 [10, 11] [10, 11] [5, 6, 7] [2, 3, 5] [0, 1, 3] [10, 11]
          (fun x => x) 1 1 1 (cellMastersOf [5, 6, 7] [0, 1, 3] 1)
          (cellCoeffsOf [2, 3, 5] [0, 1, 3] 1)) ∧
    masterBlockD Awit 2 [10, 11] [10, 11] [5, 6, 7] [2, 3, 5] [0, 1, 3] [10, 11]
        (fun x => x) 1 1 1 (cellMastersOf [5, 6, 7] [0, 1, 3] 1)
        (cellCoeffsOf [2, 3, 5] [0, 1, 3] 1) (0, 6, 3) =
      (oResultD Awit [10, 11] [10, 11] [5, 6, 7] [2, 3, 5] [0, 1, 3] [10, 11]
        (fun x => x) 1 1 1 6 3).2.2 ++
      rowOfD Awit 2 [10, 11] [10, 11] [5, 6, 7] [2, 3, 5] [0, 1, 3] [10, 11]
        (fun x => x) 1 1 1 6 3 ++
      colOfD Awit 2 [10, 11] [10, 11] [5, 6, 7] [2, 3, 5] [0, 1, 3] [10, 11]
        (fun x => x) 1 1 1 6 3 ++
      [(6, 6, 3 * (3 * Awit 1 1))] ++
      sameOfD Awit 1 (cellMastersOf [5, 6, 7] [0, 1, 3] 1)
        (cellCoeffsOf [2, 3, 5] [0, 1, 3] 1) 0 6 3 := by
  exact claim_C1 Awit 2 [10, 11] [10, 11] [5, 6, 7] [2, 3, 5] [0, 1, 3] [10, 11]
    (fun x => x)
    (insOf (modify_mpc_cell Awit 2 [10, 11] [10, 11] [5, 6, 7] [2, 3, 5] [0, 1, 3]
      [10, 11] (fun x => x)))
    1 1 1 0 6 3 rfl (by decide) rfl rfl rfl

/-- C3: on a successful run, the cross-term insertions of the `(s0, d)`
iteration have exactly the addresses `(m, m')` and `(m', m)`, once per master
`m'` of each other slave, and only for other slaves whose enumeration index
exceeds `s0` (the visitation-order guard); while the extracted row/column
entries at every other slave's local position are zeroed whenever that slave
has a master, regardless of the guard, so the subsequent row/column insertion
carries zero there. -/
theorem claim_C3 (A : Nat → Nat → ℚ) (n : Nat)
    (local_pos slaves mastersLocal : List Nat) (coefficients : List ℚ)
    (offsets cell_slaves : List Nat) (gi : Nat → Nat)
    (L : List Ins) (s0 slave_index ℓ d m : Nat) (c : ℚ)
    (hL : Option.map Prod.snd (modify_mpc_cell A n local_pos slaves mastersLocal
      coefficients offsets cell_slaves gi) = some L)
    (hs0 : s0 < (global_slave_indices slaves cell_slaves).length)
    (hsi : slave_index = (global_slave_indices slaves cell_slaves).getD s0 0)
    (hloc : slave_global_to_local_pos (slaves.getD slave_index 0) gi local_pos = some ℓ)
    (hd : ((cellMastersOf mastersLocal offsets slave_index).zip
      (cellCoeffsOf coefficients offsets slave_index)).enum[d]? = some (d, m, c)) :
    L = allInsD A n local_pos slaves mastersLocal coefficients offsets cell_slaves gi ∧
    ((oResultD A local_pos slaves mastersLocal coefficients offsets cell_slaves gi
        s0 slave_index ℓ m c).2.2).map addrOf =
      (List.range (global_slave_indices slaves cell_slaves).length).flatMap
        (crossAddrD slaves mastersLocal coefficients offsets cell_slaves
          s0 slave_index m) ∧
    (∀ o, o < (global_slave_indices slaves cell_slaves).length →
      (global_slave_indices slaves cell_slaves).getD o 0 ≠ slave_index →
      ((cellMastersOf mastersLocal offsets
          ((global_slave_indices slaves cell_slaves).getD o 0)).zip
        (cellCoeffsOf coefficients offsets
          ((global_slave_indices slaves cell_slaves).getD o 0))) ≠ [] →
      (oResultD A local_pos slaves mastersLocal coefficients offsets cell_slaves gi
        s0 slave_index ℓ m c).1 (locOfD local_pos slaves cell_slaves gi o) = 0 ∧
      (oResultD A local_pos slaves mastersLocal coefficients offsets cell_slaves gi
        s0 slave_index ℓ m c).2.1 (locOfD local_pos slaves cell_slaves gi o) = 0) := by
  refine ⟨?_, ?_, ?_⟩
  · cases hmod : modify_mpc_cell A n local_pos slaves mastersLocal coefficients offsets
        cell_slaves gi with
    | none => rw [hmod] at hL; cases hL
    | some p =>
      rw [hmod] at hL
      have hp := modify_eq_of_some A n local_pos slaves mastersLocal coefficients offsets
        cell_slaves gi p hmod
      have : p.2 = L := Option.some_inj.mp hL
      rw [← this, hp]
  · unfold oResultD
    rw [oFold_emit_addr]
    rfl
  · intro o ho hskip hzs
    unfold oResultD
    exact oFold_zero_at local_pos slaves mastersLocal coefficients offsets cell_slaves gi
      s0 slave_index m _ o (List.mem_range.mpr ho) hskip hzs _

/-- C3 witness: in the 2-slave cell, the first slave's master 5 produces cross
insertions addressed once per master of the second slave, and the extracted
row/column are zeroed at the second slave's position. -/
theorem claim_C3_witness :
    insOf (modify_mpc_cell Awit 2 [10, 11] [10, 11] [5, 6, 7] [2, 3, 5] [0, 1, 3]
        [10, 11] (fun x => x)) =
      allInsD Awit 2 [10, 11] [10, 11] [5, 6, 7] [2, 3, 5] [0, 1, 3] [10, 11]
        (fun x => x) ∧
    ((oResultD Awit [10, 11] [10, 11] [5, 6, 7] [2, 3, 5] [0, 1, 3] [10, 11]
        (fun x => x) 0 0 0 5 2).2.2).map addrOf =
      (List.range (global_slave_indices [10, 11] [10, 11]).length).flatMap
        (crossAddrD [10, 11] [5, 6, 7] [2, 3, 5] [0, 1, 3] [10, 11] 0 0 5) ∧
    ((oResultD Awit [10, 11] [10, 11] [5, 6, 7] [2, 3, 5] [0, 1, 3] [10, 11]
        (fun x => x) 0 0 0 5 2).1
          (locOfD [10, 11] [10, 11] [10, 11] (fun x => x) 1) = 0 ∧
      (oResultD Awit [10, 11] [10, 11] [5, 6, 7] [2, 3, 5] [0, 1, 3] [10, 11]
        (fun x => x) 0 0 0 5 2).2.1
          (locOfD [10, 11] [10, 11] [10, 11] (fun x => x) 1) = 0) := by
  have h := claim_C3 Awit 2 [10, 11] [10, 11] [5, 6, 7] [2, 3, 5] [0, 1, 3] [10, 11]
    (fun x => x)
    (insOf (modify_mpc_cell Awit 2 [10, 11] [10, 11] [5, 6, 7] [2, 3, 5] [0, 1, 3]
      [10, 11] (fun x => x)))
    0 0 0 0 5 2 rfl (by decide) rfl rfl rfl
  exact ⟨h.1, h.2.1, h.2.2 1 (by decide) (by decide) (by decide)⟩

/-- C2 counterexample: cell with dofs `[10, 11]` (`gi` the identity), slaves
10 (position ℓ = 0, master 5, coefficient 2) and 11 (position ℓ' = 1, masters
6 and 7 with coefficients 3 and 5), local matrix `Awit = [[1, 2], [3, 4]]`
(non-symmetric).  The claim predicts the cross term at `(5, 6)` to be
`c·c'·A_copy[ℓ, ℓ'] = 2·3·2 = 12` and at `(5, 7)` to be `2·5·2 = 20`; the code
emits `18 = 2·3·A_copy[ℓ', ℓ]` at `(5, 6)` (the transpose entry) and `0` at
`(5, 7)` (the extracted entry is zeroed after the first other master). -/
theorem claim_C2_counterexample :
    (modify_mpc_cell Awit 2 [10, 11] [10, 11] [5, 6, 7] [2, 3, 5] [0, 1, 3] [10, 11]
      (fun x => x)).isSome = true ∧
    (5, 6, (18 : ℚ)) ∈ insOf (modify_mpc_cell Awit 2 [10, 11] [10, 11] [5, 6, 7]
      [2, 3, 5] [0, 1, 3] [10, 11] (fun x => x)) ∧
    (5, 6, (2 * 3 * Awit 0 1 : ℚ)) ∉ insOf (modify_mpc_cell Awit 2 [10, 11] [10, 11]
      [5, 6, 7] [2, 3, 5] [0, 1, 3] [10, 11] (fun x => x)) ∧
    (5, 7, (2 * 5 * Awit 0 1 : ℚ)) ∉ insOf (modify_mpc_cell Awit 2 [10, 11] [10, 11]
      [5, 6, 7] [2, 3, 5] [0, 1, 3] [10, 11] (fun x => x)) ∧
    accum (insOf (modify_mpc_cell Awit 2 [10, 11] [10, 11] [5, 6, 7] [2, 3, 5]
      [0, 1, 3] [10, 11] (fun x => x))) 5 6 = 2 * 3 * Awit 1 0 ∧
    accum (insOf (modify_mpc_cell Awit 2 [10, 11] [10, 11] [5, 6, 7] [2, 3, 5]
      [0, 1, 3] [10, 11] (fun x => x))) 5 7 = 0 ∧
    (2 * 3 * Awit 0 1 : ℚ) ≠ 2 * 3 * Awit 1 0 ∧
    (2 * 5 * Awit 0 1 : ℚ) ≠ 0 := by
  have h : insOf (modify_mpc_cell Awit 2 [10, 11] [10, 11] [5, 6, 7] [2, 3, 5]
      [0, 1, 3] [10, 11] (fun x => x)) =
      [(5, 6, 18), (6, 5, 12), (5, 7, 0), (7, 5, 0), (5, 5, 0), (11, 5, 0), (5, 5, 0),
       (5, 11, 0), (5, 5, 4), (10, 6, 0), (6, 6, 0), (6, 10, 0), (6, 6, 0), (6, 6, 36),
       (6, 7, 60), (7, 6, 60), (10, 7, 0), (7, 7, 0), (7, 10, 0), (7, 7, 0),
       (7, 7, 100)] := by
    norm_num [insOf, modify_mpc_cell, slaveStep, masterStep, otherSlaveStep,
      crossMasterStep, optFold, slave_global_to_local_pos, global_slave_indices,
      in_numpy_array, cellMastersOf, cellCoeffsOf, slice, upd, Awit, List.range_succ]
  refine ⟨rfl, ?_, ?_, ?_, ?_, ?_, ?_, ?_⟩
  · rw [h]; norm_num
  · rw [h]; norm_num [Awit]
  · rw [h]; norm_num [Awit]
  · rw [h]; norm_num [accum, Awit]
  · rw [h]; norm_num [accum]
  · norm_num [Awit]
  · norm_num [Awit]

/-- C2 (amended): for two distinct slaves of the cell with distinct resolved
local positions, and the visitation-order guard `s0 < o` satisfied, the cross
block for the pair is emitted contiguously; the FIRST master `m'` (coefficient
`c'`) of the other slave receives `c'·(c·A_copy[ℓ', ℓ])` at `(m, m')` and
`c'·(c·A_copy[ℓ, ℓ'])` at `(m', m)` — the transpose of the pairing stated in
the original claim — and the cross insertions for every later master of the
other slave carry value `0`, because the extracted row/column entry at `ℓ'` is
zeroed after the first master. -/
theorem claim_C2 (A : Nat → Nat → ℚ) (n : Nat)
    (local_pos slaves mastersLocal : List Nat) (coefficients : List ℚ)
    (offsets cell_slaves : List Nat) (gi : Nat → Nat)
    (L : List Ins) (s0 o slave_index other_slave ℓ ℓ' d m m' : Nat) (c c' : ℚ)
    (rest : List (Nat × ℚ))
    (hL : Option.map Prod.snd (modify_mpc_cell A n local_pos slaves mastersLocal
      coefficients offsets cell_slaves gi) = some L)
    (hs0 : s0 < (global_slave_indices slaves cell_slaves).length)
    (ho : o < (global_slave_indices slaves cell_slaves).length)
    (hsi : slave_index = (global_slave_indices slaves cell_slaves).getD s0 0)
    (hos : other_slave = (global_slave_indices slaves cell_slaves).getD o 0)
    (hne : other_slave ≠ slave_index)
    (hguard : s0 < o)
    (hloc : slave_global_to_local_pos (slaves.getD slave_index 0) gi local_pos = some ℓ)
    (hloc' : slave_global_to_local_pos (slaves.getD other_slave 0) gi local_pos = some ℓ')
    (hdist : ∀ o1 o2, o1 < (global_slave_indices slaves cell_slaves).length →
      o2 < (global_slave_indices slaves cell_slaves).length → o1 ≠ o2 →
      locOfD local_pos slaves cell_slaves gi o1 ≠ locOfD local_pos slaves cell_slaves gi o2)
    (hd : ((cellMastersOf mastersLocal offsets slave_index).zip
      (cellCoeffsOf coefficients offsets slave_index)).enum[d]? = some (d, m, c))
    (hms : (cellMastersOf mastersLocal offsets other_slave).zip
      (cellCoeffsOf coefficients offsets other_slave) = (m', c') :: rest) :
    L = allInsD A n local_pos slaves mastersLocal coefficients offsets cell_slaves gi ∧
    (∃ pre post,
      (oResultD A local_pos slaves mastersLocal coefficients offsets cell_slaves gi
        s0 slave_index ℓ m c).2.2 =
      pre ++ ([(m, m', c' * (c * A ℓ' ℓ)), (m', m, c' * (c * A ℓ ℓ'))] ++
        crossEmitsD s0 o m 0 0 rest) ++ post) ∧
    (∀ t ∈ crossEmitsD s0 o m 0 0 rest, t.2.2 = 0) := by
  have hons0 : o ≠ s0 := by
    intro hcontra
    apply hne
    rw [hos, hsi, hcontra]
  have hlocDs0 : locOfD local_pos slaves cell_slaves gi s0 = ℓ := by
    unfold locOfD
    rw [← hsi, hloc]
    rfl
  have hlocDo : locOfD local_pos slaves cell_slaves gi o = ℓ' := by
    unfold locOfD
    rw [← hos, hloc']
    rfl
  have hll : ℓ' ≠ ℓ := by
    rw [← hlocDs0, ← hlocDo]
    exact hdist o s0 ho hs0 hons0
  refine ⟨?_, ?_, crossEmitsD_vals_zero s0 o m rest⟩
  · cases hmod : modify_mpc_cell A n local_pos slaves mastersLocal coefficients offsets
        cell_slaves gi with
    | none => rw [hmod] at hL; cases hL
    | some p =>
      rw [hmod] at hL
      have hp := modify_eq_of_some A n local_pos slaves mastersLocal coefficients offsets
        cell_slaves gi p hmod
      have : p.2 = L := Option.some_inj.mp hL
      rw [← this, hp]
  · obtain ⟨l1, l2, hsplit⟩ := List.append_of_mem (List.mem_range.mpr ho)
    have hnd : (l1 ++ o :: l2).Nodup := by
      rw [← hsplit]
      exact List.nodup_range _
    have honl1 : o ∉ l1 := by
      intro hol1
      exact (List.nodup_append.mp hnd).2.2 hol1 (List.mem_cons_self o l2)
    have hmem1 : ∀ x ∈ l1, x < (global_slave_indices slaves cell_slaves).length := by
      intro x hx
      apply List.mem_range.mp
      rw [hsplit]
      exact List.mem_append_left _ hx
    unfold oResultD
    rw [hsplit]
    obtain ⟨post, hpost⟩ := oFold_block local_pos slaves mastersLocal coefficients offsets
      cell_slaves gi s0 slave_index m l1 l2 o (by rw [← hos]; exact hne)
      (upd (fun k => c * A k ℓ) ℓ 0, upd (fun k => c * A ℓ k) ℓ 0, ([] : List Ins))
    rw [hpost]
    have hpres : ∀ o' ∈ l1,
        (global_slave_indices slaves cell_slaves).getD o' 0 ≠ slave_index →
        locOfD local_pos slaves cell_slaves gi o' ≠
          locOfD local_pos slaves cell_slaves gi o := by
      intro o' ho' _
      apply hdist o' o (hmem1 o' ho') ho
      intro hcontra
      rw [hcontra] at ho'
      exact honl1 ho'
    have hval1 : (l1.foldl (oStepD local_pos slaves mastersLocal coefficients offsets
        cell_slaves gi s0 slave_index m)
        (upd (fun k => c * A k ℓ) ℓ 0, upd (fun k => c * A ℓ k) ℓ 0,
          ([] : List Ins))).1 (locOfD local_pos slaves cell_slaves gi o) =
        c * A ℓ' ℓ := by
      rw [oFold_fst_pres local_pos slaves mastersLocal coefficients offsets cell_slaves
        gi s0 slave_index m l1 _ _ hpres]
      dsimp only
      rw [hlocDo, upd_ne _ _ _ _ hll]
    have hval2 : (l1.foldl (oStepD local_pos slaves mastersLocal coefficients offsets
        cell_slaves gi s0 slave_index m)
        (upd (fun k => c * A k ℓ) ℓ 0, upd (fun k => c * A ℓ k) ℓ 0,
          ([] : List Ins))).2.1 (locOfD local_pos slaves cell_slaves gi o) =
        c * A ℓ ℓ' := by
      rw [oFold_snd_pres local_pos slaves mastersLocal coefficients offsets cell_slaves
        gi s0 slave_index m l1 _ _ hpres]
      dsimp only
      rw [hlocDo, upd_ne _ _ _ _ hll]
    rw [hval1, hval2, ← hos, hms]
    rw [show crossEmitsD s0 o m (c * A ℓ' ℓ) (c * A ℓ ℓ') ((m', c') :: rest) =
        (if s0 < o then [(m, m', c' * (c * A ℓ' ℓ)), (m', m, c' * (c * A ℓ ℓ'))]
          else []) ++ crossEmitsD s0 o m 0 0 rest from rfl]
    rw [if_pos hguard]
    exact ⟨_, post, rfl⟩

/-- C2 witness: the amended statement holds on the two-slave cell, with the
pair `(slave 10, slave 11)`: the first master 6 of slave 11 receives the
transposed values and the second master 7 receives zeros. -/
theorem claim_C2_witness :
    insOf (modify_mpc_cell Awit 2 [10, 11] [10, 11] [5, 6, 7] [2, 3, 5] [0, 1, 3]
        [10, 11] (fun x => x)) =
      allInsD Awit 2 [10, 11] [10, 11] [5, 6, 7] [2, 3, 5] [0, 1, 3] [10, 11]
        (fun x => x) ∧
    (∃ pre post,
      (oResultD Awit [10, 11] [10, 11] [5, 6, 7] [2, 3, 5] [0, 1, 3] [10, 11]
        (fun x => x) 0 0 0 5 2).2.2 =
      pre ++ ([(5, 6, 3 * (2 * Awit 1 0)), (6, 5, 3 * (2 * Awit 0 1))] ++
        crossEmitsD 0 1 5 0 0 [(7, 5)]) ++ post) ∧
    ((5, 7, (5 : ℚ) * 0) : Ins).2.2 = 0 := by
  have h := claim_C2 Awit 2 [10, 11] [10, 11] [5, 6, 7] [2, 3, 5] [0, 1, 3] [10, 11]
    (fun x => x)
    (insOf (modify_mpc_cell Awit 2 [10, 11] [10, 11] [5, 6, 7] [2, 3, 5] [0, 1, 3]
      [10, 11] (fun x => x)))
    0 1 0 1 0 1 0 5 6 2 3 [(7, 5)] rfl (by decide) (by decide) rfl rfl (by decide)
    (by decide) rfl rfl
    (by
      intro o1 o2 h1 h2 hne12
      have h1b : o1 < 2 := h1
      have h2b : o2 < 2 := h2
      interval_cases o1 <;> interval_cases o2 <;>
        first
        | exact absurd rfl hne12
        | decide)
    rfl rfl
  refine ⟨h.1, h.2.1, h.2.2 (5, 7, (5 : ℚ) * 0) ?_⟩
  show (5, 7, (5 : ℚ) * 0) ∈ [((5 : Nat), (7 : Nat), (5 : ℚ) * 0),
    ((7 : Nat), (5 : Nat), (5 : ℚ) * 0)]
  exact List.mem_cons_self _ _

/-- C8: if the local element matrix of the cell is symmetric, the total
additive contribution of the cell — the transform's emissions followed by the
insertion of the reduced local matrix — accumulates to a symmetric matrix:
the value at `(i, j)` equals the value at `(j, i)` for every pair of global
positions. -/
theorem claim_C8 (A : Nat → Nat → ℚ) (n : Nat)
    (local_pos slaves mastersLocal : List Nat) (coefficients : List ℚ)
    (offsets cell_slaves : List Nat) (gi : Nat → Nat) (T : List Ins)
    (hT : cellContribution A n local_pos slaves mastersLocal coefficients offsets
      cell_slaves gi = some T)
    (hsym : ∀ i j, A i j = A j i) :
    ∀ i j, accum T i j = accum T j i := by
  unfold cellContribution at hT
  cases hmod : modify_mpc_cell A n local_pos slaves mastersLocal coefficients offsets
      cell_slaves gi with
  | none => rw [hmod] at hT; cases hT
  | some p =>
    rw [hmod] at hT
    simp only [Option.map_some'] at hT
    have hp := modify_eq_of_some A n local_pos slaves mastersLocal coefficients offsets
      cell_slaves gi p hmod
    have hT2 : T = allInsD A n local_pos slaves mastersLocal coefficients offsets
        cell_slaves gi ++
        localIns (finalAD A local_pos slaves mastersLocal coefficients offsets
          cell_slaves gi) local_pos n := by
      rw [← Option.some_inj.mp hT, hp]
    rw [hT2]
    exact symAccum_append
      (allInsD_sym A n local_pos slaves mastersLocal coefficients offsets cell_slaves gi
        hsym)
      (localIns_sym _ local_pos n
        (finalAD_sym A local_pos slaves mastersLocal coefficients offsets cell_slaves gi
          hsym))

/-- C8 witness: the symmetric matrix `Asym` on the two-slave cell yields a
symmetric accumulated contribution. -/
theorem claim_C8_witness :
    accum ((cellContribution Asym 2 [10, 11] [10, 11] [5, 6, 7] [2, 3, 5] [0, 1, 3]
        [10, 11] (fun x => x)).getD []) 5 6 =
      accum ((cellContribution Asym 2 [10, 11] [10, 11] [5, 6, 7] [2, 3, 5] [0, 1, 3]
        [10, 11] (fun x => x)).getD []) 6 5 := by
  exact claim_C8 Asym 2 [10, 11] [10, 11] [5, 6, 7] [2, 3, 5] [0, 1, 3] [10, 11]
    (fun x => x)
    ((cellContribution Asym 2 [10, 11] [10, 11] [5, 6, 7] [2, 3, 5] [0, 1, 3]
      [10, 11] (fun x => x)).getD [])
    rfl
    (by
      intro i j
      unfold Asym
      by_cases hij : i = j <;> simp [hij, eq_comm])
    5 6

/-- C9: the per-cell pipeline zeroes Dirichlet bc rows/columns before the
constraint transform runs, so the transform's pre-zeroing copy is the
bc-zeroed matrix; consequently, if a slave's local position is a bc dof, every
emission of its `(slave, master)` iterations has value zero, and for every bc
local position the extracted row/column values there are zero, so the
contributions redistributed to masters never couple with a bc dof of the
cell. -/
theorem claim_C9 (A : Nat → Nat → ℚ) (bcs : List Nat) (n : Nat)
    (local_pos slaves mastersLocal : List Nat) (coefficients : List ℚ)
    (offsets cell_slaves : List Nat) (gi : Nat → Nat) (T : List Ins)
    (hT : assembleCellBC A bcs n local_pos slaves mastersLocal coefficients offsets
      cell_slaves gi = some T) :
    T = allInsD (bcZero A bcs local_pos) n local_pos slaves mastersLocal coefficients
        offsets cell_slaves gi ++
      localIns (finalAD (bcZero A bcs local_pos) local_pos slaves mastersLocal
        coefficients offsets cell_slaves gi) local_pos n ∧
    (∀ s0 slave_index slave_local, slave_local < local_pos.length →
      in_numpy_array bcs (local_pos.getD slave_local 0) = true →
      ∀ (dmc : Nat × Nat × ℚ) (cm : List Nat) (cc : List ℚ),
        ∀ t ∈ masterBlockD (bcZero A bcs local_pos) n local_pos slaves mastersLocal
          coefficients offsets cell_slaves gi s0 slave_index slave_local cm cc dmc,
          t.2.2 = 0) ∧
    (∀ s0 slave_index slave_local master k, ∀ coeff : ℚ, k < local_pos.length →
      in_numpy_array bcs (local_pos.getD k 0) = true →
      (oResultD (bcZero A bcs local_pos) local_pos slaves mastersLocal coefficients
        offsets cell_slaves gi s0 slave_index slave_local master coeff).1 k = 0 ∧
      (oResultD (bcZero A bcs local_pos) local_pos slaves mastersLocal coefficients
        offsets cell_slaves gi s0 slave_index slave_local master coeff).2.1 k = 0) := by
  refine ⟨?_, ?_, ?_⟩
  · unfold assembleCellBC cellContribution at hT
    cases hmod : modify_mpc_cell (bcZero A bcs local_pos) n local_pos slaves
        mastersLocal coefficients offsets cell_slaves gi with
    | none => rw [hmod] at hT; cases hT
    | some p =>
      rw [hmod] at hT
      simp only [Option.map_some'] at hT
      have hp := modify_eq_of_some (bcZero A bcs local_pos) n local_pos slaves
        mastersLocal coefficients offsets cell_slaves gi p hmod
      rw [← Option.some_inj.mp hT, hp]
  · intro s0 slave_index slave_local hlen hbc dmc cm cc
    exact masterBlockD_vals_zero (bcZero A bcs local_pos) n local_pos slaves
      mastersLocal coefficients offsets cell_slaves gi s0 slave_index slave_local
      cm cc dmc
      (fun k => bcZero_col A bcs local_pos slave_local hlen hbc k)
      (fun k => bcZero_row A bcs local_pos slave_local hlen hbc k)
  · intro s0 slave_index slave_local master k coeff hlen hbc
    constructor
    · exact oResultD_fst_zero (bcZero A bcs local_pos) local_pos slaves mastersLocal
        coefficients offsets cell_slaves gi s0 slave_index slave_local master coeff k
        (bcZero_row A bcs local_pos k hlen hbc slave_local)
    · exact oResultD_snd_zero (bcZero A bcs local_pos) local_pos slaves mastersLocal
        coefficients offsets cell_slaves gi s0 slave_index slave_local master coeff k
        (bcZero_col A bcs local_pos k hlen hbc slave_local)

/-- C9 witness: the pipeline on the two-slave cell with dof 10 held by a
Dirichlet condition. -/
theorem claim_C9_witness :
    (assembleCellBC Awit [10] 2 [10, 11] [10, 11] [5, 6, 7] [2, 3, 5] [0, 1, 3]
      [10, 11] (fun x => x)).getD [] =
      allInsD (bcZero Awit [10] [10, 11]) 2 [10, 11] [10, 11] [5, 6, 7] [2, 3, 5]
        [0, 1, 3] [10, 11] (fun x => x) ++
      localIns (finalAD (bcZero Awit [10] [10, 11]) [10, 11] [10, 11] [5, 6, 7]
        [2, 3, 5] [0, 1, 3] [10, 11] (fun x => x)) [10, 11] 2 ∧
    accum (masterBlockD (bcZero Awit [10] [10, 11]) 2 [10, 11] [10, 11] [5, 6, 7]
      [2, 3, 5] [0, 1, 3] [10, 11] (fun x => x) 0 0 0 [5] [2] (0, 5, 2)) 5 5 = 0 ∧
    (oResultD (bcZero Awit [10] [10, 11]) [10, 11] [10, 11] [5, 6, 7] [2, 3, 5]
      [0, 1, 3] [10, 11] (fun x => x) 1 1 1 6 3).1 0 = 0 ∧
    (oResultD (bcZero Awit [10] [10, 11]) [10, 11] [10, 11] [5, 6, 7] [2, 3, 5]
      [0, 1, 3] [10, 11] (fun x => x) 1 1 1 6 3).2.1 0 = 0 := by
  have h := claim_C9 Awit [10] 2 [10, 11] [10, 11] [5, 6, 7] [2, 3, 5] [0, 1, 3]
    [10, 11] (fun x => x)
    ((assembleCellBC Awit [10] 2 [10, 11] [10, 11] [5, 6, 7] [2, 3, 5] [0, 1, 3]
      [10, 11] (fun x => x)).getD [])
    rfl
  refine ⟨h.1, ?_, (h.2.2 1 1 1 6 0 3 (by decide) (by decide)).1,
    (h.2.2 1 1 1 6 0 3 (by decide) (by decide)).2⟩
  exact accum_eq_zero_of_vals _
    (h.2.1 0 0 0 (by decide) (by decide) (0, 5, 2) [5] [2]) 5 5

/-- C5: the vector transform adds, at every global position `p`, exactly the
accumulation of the per-(slave, master, matched position) emissions
`coeff * b_copy[k]` targeted at the (local) master index — no cross-coupling
terms between masters exist in `vecInsD` — and it zeroes the local entry of
every matched slave position while leaving all other local entries
unchanged. -/
theorem claim_C5 (b b_local b_copy : Nat → ℚ)
    (glob slaves mastersLocal : List Nat) (coefficients : List ℚ)
    (offsets cell_slaves : List Nat) (gi : Nat → Nat) :
    (∀ p, (modify_mpc_contributions b b_local b_copy glob slaves mastersLocal
        coefficients offsets cell_slaves gi).1 p =
      b p + accumV (vecInsD b_copy glob slaves mastersLocal coefficients offsets
        cell_slaves gi) p) ∧
    (∀ j, slaveZeroed glob slaves mastersLocal offsets cell_slaves gi j →
      (modify_mpc_contributions b b_local b_copy glob slaves mastersLocal
        coefficients offsets cell_slaves gi).2 j = 0) ∧
    (∀ j, ¬ slaveZeroed glob slaves mastersLocal offsets cell_slaves gi j →
      (modify_mpc_contributions b b_local b_copy glob slaves mastersLocal
        coefficients offsets cell_slaves gi).2 j = b_local j) :=
  ⟨fun p => modify_vec_fst b b_local b_copy glob slaves mastersLocal coefficients
      offsets cell_slaves gi p,
   fun j hz => modify_vec_snd_zero b b_local b_copy glob slaves mastersLocal
      coefficients offsets cell_slaves gi j hz,
   fun j hz => modify_vec_snd_pres b b_local b_copy glob slaves mastersLocal
      coefficients offsets cell_slaves gi j hz⟩

/-- C5 witness: a cell with dofs `[10, 11]`, slave 10 at position 0 with
master 5 and coefficient 2: the master entry accumulates, position 0 is
zeroed, position 1 is untouched. -/
theorem claim_C5_witness :
    (modify_mpc_contributions (fun _ => 0) (fun k => if k = 0 then 3 else 7)
        (fun k => if k = 0 then 3 else 7) [10, 11] [10] [5] [2] [0, 1] [10]
        (fun x => x)).1 5 =
      (fun _ => (0 : ℚ)) 5 + accumV (vecInsD (fun k => if k = 0 then 3 else 7)
        [10, 11] [10] [5] [2] [0, 1] [10] (fun x => x)) 5 ∧
    (modify_mpc_contributions (fun _ => 0) (fun k => if k = 0 then 3 else 7)
        (fun k => if k = 0 then 3 else 7) [10, 11] [10] [5] [2] [0, 1] [10]
        (fun x => x)).2 0 = 0 ∧
    (modify_mpc_contributions (fun _ => 0) (fun k => if k = 0 then 3 else 7)
        (fun k => if k = 0 then 3 else 7) [10, 11] [10] [5] [2] [0, 1] [10]
        (fun x => x)).2 1 = (fun k => if k = 0 then (3 : ℚ) else 7) 1 := by
  have h := claim_C5 (fun _ => 0) (fun k => if k = 0 then 3 else 7)
    (fun k => if k = 0 then 3 else 7) [10, 11] [10] [5] [2] [0, 1] [10] (fun x => x)
  refine ⟨h.1 5, h.2.1 0 ?_, h.2.2 1 ?_⟩
  · refine ⟨by decide, 0, by decide, by decide, by decide⟩
  · intro hz
    have h1 := hz.2
    obtain ⟨s0, hs0, heq, _⟩ := h1
    have hs0b : s0 < 1 := List.mem_range.mp hs0
    have hs00 : s0 = 0 := Nat.lt_one_iff.mp hs0b
    subst hs00
    exact absurd heq (by decide)

/-- C10: the MPC vector pass writes back only the per-position differences;
the difference is zero at every local position that is not a zeroed slave
position, and a global entry that is neither a master target of the cell's
emissions nor the image of a slave position is unchanged by the whole
pass. -/
theorem claim_C10 (b b_local : Nat → ℚ)
    (glob slaves mastersLocal : List Nat) (coefficients : List ℚ)
    (offsets cell_slaves : List Nat) (gi : Nat → Nat) (n : Nat) :
    (∀ j, ¬ slaveZeroed glob slaves mastersLocal offsets cell_slaves gi j →
      (modify_mpc_contributions b b_local b_local glob slaves mastersLocal coefficients
        offsets cell_slaves gi).2 j - b_local j = 0) ∧
    (∀ p, (∀ t ∈ vecInsD b_local glob slaves mastersLocal coefficients offsets
        cell_slaves gi, t.1 ≠ p) →
      (∀ j, j < n → glob.getD j 0 = p →
        ¬ slaveZeroed glob slaves mastersLocal offsets cell_slaves gi j) →
      assemble_cell_vector b b_local glob slaves mastersLocal coefficients offsets
        cell_slaves gi n p = b p) := by
  constructor
  · intro j hz
    rw [modify_vec_snd_pres b b_local b_local glob slaves mastersLocal coefficients
      offsets cell_slaves gi j hz]
    ring
  · intro p hmast hloc
    unfold assemble_cell_vector
    rw [writeback_apply, modify_vec_fst,
      accumV_eq_zero_of_not_mem _ _ hmast, add_zero]
    have hsum : ((List.range n).map (fun j =>
        if glob.getD j 0 = p then
          (modify_mpc_contributions b b_local b_local glob slaves mastersLocal
            coefficients offsets cell_slaves gi).2 j - b_local j
        else 0)).sum = 0 := by
      apply List.sum_eq_zero
      intro x hx
      obtain ⟨j, hj, rfl⟩ := List.mem_map.mp hx
      by_cases hgp : glob.getD j 0 = p
      · rw [if_pos hgp, modify_vec_snd_pres b b_local b_local glob slaves mastersLocal
          coefficients offsets cell_slaves gi j (hloc j (List.mem_range.mp hj) hgp)]
        ring
      · rw [if_neg hgp]
    rw [hsum, add_zero]

/-- C10 witness: global entry 11 (local position 1, not a slave, not a master
target) is unchanged by the pass. -/
theorem claim_C10_witness :
    ((modify_mpc_contributions (fun _ => 0) (fun k => if k = 0 then 3 else 7)
        (fun k => if k = 0 then 3 else 7) [10, 11] [10] [5] [2] [0, 1] [10]
        (fun x => x)).2 1 - (fun k => if k = 0 then (3 : ℚ) else 7) 1 = 0) ∧
    assemble_cell_vector (fun _ => 0) (fun k => if k = 0 then 3 else 7) [10, 11] [10]
      [5] [2] [0, 1] [10] (fun x => x) 2 11 = (fun _ => (0 : ℚ)) 11 := by
  have h := claim_C10 (fun _ => 0) (fun k => if k = 0 then 3 else 7) [10, 11] [10]
    [5] [2] [0, 1] [10] (fun x => x) 2
  have hnz1 : ¬ slaveZeroed [10, 11] [10] [5] [0, 1] [10] (fun x => x) 1 := by
    intro hz
    obtain ⟨s0, hs0, heq, _⟩ := hz.2
    have hs00 : s0 = 0 := Nat.lt_one_iff.mp (List.mem_range.mp hs0)
    subst hs00
    exact absurd heq (by decide)
  refine ⟨h.1 1 hnz1, h.2 11 ?_ ?_⟩
  · intro t ht
    have : t ∈ [((5 : Nat), (2 : ℚ) * 3)] := by
      revert ht
      norm_num [vecInsD, global_slave_indices, in_numpy_array, cellMastersOf,
        cellCoeffsOf, slice, List.range_succ]
    rw [List.mem_singleton.mp this]
    decide
  · intro j hj hgp hz
    have hz1 := hz.1
    have hj2 : j < 2 := hz1
    interval_cases j
    · exact absurd hgp (by decide)
    · obtain ⟨s0, hs0, heq, _⟩ := hz.2
      have hs00 : s0 = 0 := Nat.lt_one_iff.mp (List.mem_range.mp hs0)
      subst hs00
      exact absurd heq (by decide)

/-- C4 counterexample: `add_diagonal` inserts one unit diagonal entry for
every dof of the calling process's slave list, regardless of ownership: a
rank owning only the range `[0, 1)` that holds slave dof 5 (as a ghost) still
performs the diagonal insertion at `(5, 5)` — contradicting the claim that
only the owning process inserts. -/
theorem claim_C4_counterexample :
    (5, 5, (1 : ℚ)) ∈ add_diagonal_inserts (RankView.mk [5] 0 1).slaves ∧
    ¬ owns (RankView.mk [5] 0 1) 5 := by
  constructor
  · show (5, 5, (1 : ℚ)) ∈ [(5, 5, (1 : ℚ))]
    exact List.mem_singleton.mpr rfl
  · intro h
    exact absurd h.2 (by decide)

/-- C4 (amended): every process holding the slave performs the diagonal
insertion (the code comment says it is "done on every processors"), but with
overwrite (`INSERT`) semantics — modelled from the spec because
`numba_setup.py` is not under `src/` — so after any nonempty sequence of
ranks all holding the dof, the diagonal value is exactly 1: the fix-up is
exactly-once globally in effect, not in execution. -/
theorem claim_C4 (ranks : List RankView) (M : Nat → Nat → ℚ) (d : Nat)
    (hall : ∀ r ∈ ranks, d ∈ r.slaves) (hne : ranks ≠ []) :
    (ranks.foldl (fun M r => applyOverwrite M (add_diagonal_inserts r.slaves)) M) d d
      = 1 := by
  revert hall hne
  induction ranks generalizing M with
  | nil => intro _ hne; exact absurd rfl hne
  | cons r ranks ih =>
    intro hall _
    rw [List.foldl_cons]
    by_cases hr : ranks = []
    · subst hr
      rw [List.foldl_nil, applyOverwrite_diag,
        if_pos (hall r (List.mem_cons_self r []))]
    · exact ih (applyOverwrite M (add_diagonal_inserts r.slaves))
        (fun r' hr' => hall r' (List.mem_cons_of_mem r hr')) hr

/-- C4 witness: two ranks both holding dof 5 (one owner, one ghost) both
insert; the final diagonal value is still 1. -/
theorem claim_C4_witness :
    (([RankView.mk [5] 0 1, RankView.mk [5] 5 6].foldl
      (fun M r => applyOverwrite M (add_diagonal_inserts r.slaves))
      (fun _ _ => 0)) 5 5) = 1 := by
  exact claim_C4 [RankView.mk [5] 0 1, RankView.mk [5] 5 6] (fun _ _ => 0) 5
    (by
      intro r hr
      rcases List.mem_cons.mp hr with rfl | hr2
      · exact List.mem_singleton.mpr rfl
      · rcases List.mem_cons.mp hr2 with rfl | hr3
        · exact List.mem_singleton.mpr rfl
        · cases hr3)
    (List.cons_ne_nil _ _)

/-- C7: evaluation at the failing input — a cell with local dofs `[7, 9]` and
a slave (global dof 9, local position 1) whose only master is itself (local
index 9) with coefficient 1, on the matrix `Awit`.  The transform does not
crash, but instead of moving zero contribution it re-inserts the
coefficient-scaled slave row and column at the slave's own addresses
(`(7,9) += A[0,1] = 2`, `(9,7) += A[1,0] = 3`) and adds `c²·A[1,1] = 4` on
the slave's diagonal, rather than leaving the entry to the global
unit-diagonal fix-up alone. -/
theorem claim_C7_eval :
    (modify_mpc_cell Awit 2 [7, 9] [9] [9] [1] [0, 1] [9] (fun x => x)).isSome
      = true ∧
    insOf (modify_mpc_cell Awit 2 [7, 9] [9] [9] [1] [0, 1] [9] (fun x => x)) =
      [(7, 9, 2), (9, 9, 0), (9, 7, 3), (9, 9, 0), (9, 9, 4)] ∧
    accum (insOf (modify_mpc_cell Awit 2 [7, 9] [9] [9] [1] [0, 1] [9]
      (fun x => x))) 7 9 = Awit 0 1 ∧
    accum (insOf (modify_mpc_cell Awit 2 [7, 9] [9] [9] [1] [0, 1] [9]
      (fun x => x))) 9 7 = Awit 1 0 ∧
    accum (insOf (modify_mpc_cell Awit 2 [7, 9] [9] [9] [1] [0, 1] [9]
      (fun x => x))) 9 9 = Awit 1 1 ∧
    Awit 0 1 ≠ 0 := by
  have h : insOf (modify_mpc_cell Awit 2 [7, 9] [9] [9] [1] [0, 1] [9]
      (fun x => x)) = [(7, 9, 2), (9, 9, 0), (9, 7, 3), (9, 9, 0), (9, 9, 4)] := by
    norm_num [insOf, modify_mpc_cell, slaveStep, masterStep, otherSlaveStep,
      crossMasterStep, optFold, slave_global_to_local_pos, global_slave_indices,
      in_numpy_array, cellMastersOf, cellCoeffsOf, slice, upd, Awit, List.range_succ]
  refine ⟨rfl, h, ?_, ?_, ?_, by norm_num [Awit]⟩ <;>
    rw [h] <;> norm_num [accum, Awit]

end MPCVerify
